import Mathlib

/-!
Formal model of the wamiri document-processing backend.

This file gives a shallow embedding, in Lean 4, of the components of the
backend that the verified properties speak about:

* the circuit breaker (`src/backend/src/services/circuit_breaker.py`),
* the sliding-window monitoring service
  (`src/backend/src/services/monitoring_service.py`),
* the review-queue database operations
  (`src/backend/src/services/review_queue_service.py` and the synchronous
  variants in `src/backend/src/services/storage_service.py`),
* the idempotency cache and the Celery worker task
  (`src/backend/src/services/storage_service.py`,
  `src/backend/src/tasks/celery_app.py`),
* the DAG workflow executor
  (`src/backend/src/services/workflow_executor.py`).

Modelling conventions:

* Wall-clock instants and durations are rational numbers (seconds).  Every
  Python call of `time.time()` / `time.monotonic()` / `datetime.now()`
  becomes an explicit `now : ℚ` parameter.
* Python floats become `ℚ`; `round(x, n)` becomes `pyRound n x` below.
* Database tables become Lean lists of row structures.  SQL `UPDATE ... WHERE`
  becomes a `List.map` guarded by the `WHERE` predicate, `DELETE ... WHERE`
  becomes a `List.filter` with the negated predicate, and `INSERT` appends.
* `uuid.uuid4()` (fresh primary keys) is modelled by a counter `nextId`
  carried in the database state; freshness of generated keys is then a
  provable invariant rather than an assumption.
* User-supplied callables (`fn`, `condition`), random jitter and the
  extraction provider are modelled as explicit oracle parameters.
-/

/-- Python's `round(x, 1)`: one decimal digit.  (Python uses banker's
rounding at exact ties; `round` in Mathlib rounds ties up.  All concrete
values appearing in theorems below are tie-free, where the two agree.) -/
def pyRound1 (x : ℚ) : ℚ := (round (x * 10) : ℤ) / 10

/-- Python's `round(x, 2)`: two decimal digits. -/
def pyRound2 (x : ℚ) : ℚ := (round (x * 100) : ℤ) / 100

/-!
## Circuit breaker (`circuit_breaker.py`)

`CircuitBreaker` carries both the constructor parameters and the mutable
state (`_state`, `_failure_count`, `_success_count`, `_half_open_calls`,
`_last_failure_time`).  Each method takes the current monotonic time as an
explicit argument where the source reads `time.monotonic()`.
-/

/-- The three circuit states (`CircuitState` in the source; `OPEN` is spelt
`opened` because `open` is a Lean keyword). -/
inductive CircuitState
  | closed
  | opened
  | halfOpen
deriving DecidableEq, Repr

/-- State of a `CircuitBreaker` instance: constructor parameters together
with the mutable fields guarded by the instance mutex. -/
structure CircuitBreaker where
  failureThreshold : Nat := 5
  recoveryTimeout : ℚ := 60
  halfOpenMaxCalls : Nat := 2
  state : CircuitState := .closed
  failureCount : Nat := 0
  successCount : Nat := 0
  halfOpenCalls : Nat := 0
  lastFailureTime : ℚ := 0
deriving DecidableEq, Repr

namespace CircuitBreaker

/-- `CircuitBreaker._transition`: perform a state transition, resetting the
counters exactly as the source does for each target state. -/
def transition (b : CircuitBreaker) (newState : CircuitState) : CircuitBreaker :=
  match newState with
  | .closed => { b with state := .closed, failureCount := 0, successCount := 0, halfOpenCalls := 0 }
  | .halfOpen => { b with state := .halfOpen, halfOpenCalls := 0, successCount := 0 }
  | .opened => { b with state := .opened }

/-- `CircuitBreaker._maybe_transition_to_half_open`: OPEN becomes HALF_OPEN
once `recovery_timeout` has elapsed since the last failure. -/
def maybeTransitionToHalfOpen (b : CircuitBreaker) (now : ℚ) : CircuitBreaker :=
  if b.state = .opened then
    if b.recoveryTimeout ≤ now - b.lastFailureTime then b.transition .halfOpen else b
  else b

/-- `CircuitBreaker.record_success`. -/
def record_success (b : CircuitBreaker) : CircuitBreaker :=
  if b.state = .halfOpen then
    let b := { b with successCount := b.successCount + 1 }
    if b.halfOpenMaxCalls ≤ b.successCount then b.transition .closed else b
  else if b.state = .closed then
    { b with failureCount := 0 }
  else b

/-- `CircuitBreaker.record_failure`. -/
def record_failure (b : CircuitBreaker) (now : ℚ) : CircuitBreaker :=
  let b := { b with failureCount := b.failureCount + 1, lastFailureTime := now }
  if b.state = .halfOpen then b.transition .opened
  else if b.state = .closed then
    if b.failureThreshold ≤ b.failureCount then b.transition .opened else b
  else b

/-- `CircuitBreaker.allow_request`: returns the updated breaker and whether
the request is admitted. -/
def allow_request (b : CircuitBreaker) (now : ℚ) : CircuitBreaker × Bool :=
  let b := b.maybeTransitionToHalfOpen now
  if b.state = .closed then (b, true)
  else if b.state = .halfOpen then
    if b.halfOpenCalls < b.halfOpenMaxCalls then
      ({ b with halfOpenCalls := b.halfOpenCalls + 1 }, true)
    else (b, false)
  else (b, false)

/-- `CircuitBreaker.__enter__`: calls `allow_request`; when denied it raises
`CircuitOpenError(remaining)` — modelled as `some remaining` — and the
wrapped function is not invoked. -/
def enter (b : CircuitBreaker) (now : ℚ) : CircuitBreaker × Option ℚ :=
  let (b, ok) := b.allow_request now
  if ok then (b, none)
  else (b, some (max (b.recoveryTimeout - (now - b.lastFailureTime)) 0))

/-- Run a sequence of `allow_request` calls at the given instants, returning
the final breaker and the list of admission answers. -/
def allowRun (b : CircuitBreaker) : List ℚ → CircuitBreaker × List Bool
  | [] => (b, [])
  | t :: ts =>
    let (b, r) := b.allow_request t
    let (b', rs) := allowRun b ts
    (b', r :: rs)

/-- Run a sequence of `record_failure` calls at the given instants. -/
def failRun (b : CircuitBreaker) : List ℚ → CircuitBreaker
  | [] => b
  | t :: ts => failRun (b.record_failure t) ts

end CircuitBreaker

/-!
## Sliding-window monitoring (`monitoring_service.py`)

The Prometheus gauges that the derived metrics are written to are modelled
as fields of the service state (`documentsPerHourGauge`, `p95Gauge`,
`errorRateGauge`).  The sliding window is the deque of
`(timestamp, duration)` pairs.
-/

/-- `_WINDOW_SECONDS = 3600`. -/
def windowSeconds : ℚ := 3600

/-- State of `MonitoringService` plus the module-level gauges it writes. -/
structure MonitoringService where
  processingWindow : List (ℚ × ℚ) := []
  windowStart : ℚ := 0
  processedCount : Nat := 0
  errorCount : Nat := 0
  currentQueueDepth : Nat := 0
  slaTotalChecks : Nat := 0
  slaBreachCount : Nat := 0
  documentsPerHourGauge : ℚ := 0
  p95Gauge : ℚ := 0
  errorRateGauge : ℚ := 0
deriving Repr

/-- The metric dictionary built by `MonitoringService._get_current_metrics`. -/
structure CurrentMetrics where
  p95LatencySeconds : ℚ
  docsPerHour : ℚ
  errorRatePercent : ℚ
  reviewQueueDepth : Nat
  slaBreachPercent : ℚ
  totalProcessed : Nat
  totalErrors : Nat
  uptimeHours : ℚ
deriving DecidableEq, Repr

namespace MonitoringService

/-- `MonitoringService._evict_old_entries`: pop from the left while the
front timestamp is older than `now − _WINDOW_SECONDS`. -/
def evictOldEntries (w : List (ℚ × ℚ)) (now : ℚ) : List (ℚ × ℚ) :=
  w.dropWhile (fun e => e.1 < now - windowSeconds)

/-- The p95 computation of `_update_derived_metrics`:
`sorted_times[min(int(N*0.95), N-1)]`. -/
def p95OfWindow (durations : List ℚ) : ℚ :=
  let s := durations.mergeSort (· ≤ ·)
  s.getD (min (s.length * 95 / 100) (s.length - 1)) 0

/-- `MonitoringService._update_derived_metrics`: recompute the P95,
throughput and error-rate gauges from the sliding window. -/
def updateDerivedMetrics (m : MonitoringService) (now : ℚ) : MonitoringService :=
  let w := evictOldEntries m.processingWindow now
  let durations := w.map Prod.snd
  let m := { m with processingWindow := w }
  let m :=
    if durations ≠ [] then { m with p95Gauge := p95OfWindow durations } else m
  let windowHours := max (windowSeconds / 3600) (1 / 1000)
  let rate := (durations.length : ℚ) / windowHours
  let m := { m with documentsPerHourGauge := pyRound1 rate }
  if m.processedCount > 0 then
    { m with errorRateGauge :=
        pyRound2 ((m.errorCount : ℚ) / (m.processedCount : ℚ) * 100) }
  else m

/-- `MonitoringService.record_processing` (the Prometheus counter/histogram
side effects are not part of the model): append the event to the window,
evict old entries, bump the cumulative counters, and recompute the derived
gauges. -/
def record_processing (m : MonitoringService) (now duration : ℚ)
    (success : Bool) : MonitoringService :=
  let m := { m with
    processingWindow := evictOldEntries (m.processingWindow ++ [(now, duration)]) now,
    processedCount := m.processedCount + 1,
    errorCount := m.errorCount + (if success then 0 else 1) }
  m.updateDerivedMetrics now

/-- The p95 computation of `_get_current_metrics`:
`s[int(len(s)*0.95)] if len(s) > 1 else s[0]` (0 on the empty window). -/
def p95Snapshot (durations : List ℚ) : ℚ :=
  let s := durations.mergeSort (· ≤ ·)
  if s.length > 1 then s.getD (s.length * 95 / 100) 0 else s.getD 0 0

/-- `MonitoringService._get_current_metrics`: builds the metric dictionary.
Note that `docs_per_hour` here is `processed_count` divided by the elapsed
time since service start — not a sliding-window quantity. -/
def getCurrentMetrics (m : MonitoringService) (now : ℚ) :
    CurrentMetrics × MonitoringService :=
  let w := evictOldEntries m.processingWindow now
  let m := { m with processingWindow := w }
  let elapsedHours := max ((now - m.windowStart) / 3600) (1 / 1000)
  let durations := w.map Prod.snd
  (⟨pyRound2 (p95Snapshot durations),
    pyRound1 ((m.processedCount : ℚ) / elapsedHours),
    pyRound2 ((m.errorCount : ℚ) / (max m.processedCount 1 : ℚ) * 100),
    m.currentQueueDepth,
    pyRound2 (if m.slaTotalChecks > 0 then
      (m.slaBreachCount : ℚ) / (m.slaTotalChecks : ℚ) * 100 else 0),
    m.processedCount,
    m.errorCount,
    pyRound2 elapsedHours⟩, m)

/-- `MonitoringService.get_dashboard_metrics` is exactly
`_get_current_metrics`. -/
def getDashboardMetrics (m : MonitoringService) (now : ℚ) :
    CurrentMetrics × MonitoringService :=
  m.getCurrentMetrics now

end MonitoringService

/-!
## Circuit breaker lemmas and the admission contract
-/

namespace CircuitBreaker

theorem maybeTransition_of_not_opened {b : CircuitBreaker} (now : ℚ)
    (h : b.state ≠ .opened) : b.maybeTransitionToHalfOpen now = b := by
  simp [maybeTransitionToHalfOpen, h]

theorem allow_request_closed (b : CircuitBreaker) (now : ℚ)
    (h : b.state = .closed) : b.allow_request now = (b, true) := by
  have hne : b.state ≠ .opened := by simp [h]
  simp [allow_request, maybeTransition_of_not_opened now hne, h]

theorem allow_request_halfOpen_lt (b : CircuitBreaker) (now : ℚ)
    (h : b.state = .halfOpen) (hlt : b.halfOpenCalls < b.halfOpenMaxCalls) :
    b.allow_request now = ({ b with halfOpenCalls := b.halfOpenCalls + 1 }, true) := by
  have hne : b.state ≠ .opened := by simp [h]
  simp [allow_request, maybeTransition_of_not_opened now hne, h, hlt]

theorem allow_request_halfOpen_ge (b : CircuitBreaker) (now : ℚ)
    (h : b.state = .halfOpen) (hge : ¬ b.halfOpenCalls < b.halfOpenMaxCalls) :
    b.allow_request now = (b, false) := by
  have hne : b.state ≠ .opened := by simp [h]
  simp [allow_request, maybeTransition_of_not_opened now hne, h, hge]

theorem allow_request_opened_early (b : CircuitBreaker) (now : ℚ)
    (h : b.state = .opened) (hearly : now - b.lastFailureTime < b.recoveryTimeout) :
    b.allow_request now = (b, false) := by
  have hm : b.maybeTransitionToHalfOpen now = b := by
    simp [maybeTransitionToHalfOpen, h, not_le.2 hearly]
  simp [allow_request, hm, h]

/-- While HALF_OPEN, a run of `allow_request` calls admits exactly
`min (number of calls) (half_open_max_calls − half_open_calls)` requests. -/
theorem allowRun_halfOpen_count (ts : List ℚ) : ∀ (b : CircuitBreaker),
    b.state = .halfOpen →
    ((b.allowRun ts).2.count true) = min ts.length (b.halfOpenMaxCalls - b.halfOpenCalls) := by
  induction ts with
  | nil => intro b _; simp [allowRun]
  | cons t ts ih =>
    intro b hb
    by_cases hlt : b.halfOpenCalls < b.halfOpenMaxCalls
    · have h1 := allow_request_halfOpen_lt b t hb hlt
      have ih' := ih { b with halfOpenCalls := b.halfOpenCalls + 1 } (by simpa using hb)
      simp only [allowRun, h1, List.count_cons, List.length_cons]
      simp only [ih']
      simp only [beq_self_eq_true, if_true]
      omega
    · have h1 := allow_request_halfOpen_ge b t hb hlt
      have ih' := ih b hb
      simp only [allowRun, h1, List.count_cons, List.length_cons]
      simp only [ih']
      simp
      omega

/-- A failure streak while CLOSED and below threshold stays CLOSED and
counts the consecutive failures; the configuration fields are untouched. -/
theorem failRun_closed_below (ts : List ℚ) : ∀ (b : CircuitBreaker),
    b.state = .closed → b.failureCount + ts.length < b.failureThreshold →
    (b.failRun ts).state = .closed ∧
    (b.failRun ts).failureCount = b.failureCount + ts.length ∧
    (b.failRun ts).failureThreshold = b.failureThreshold := by
  induction ts with
  | nil => intro b hb _; simpa [failRun] using hb
  | cons t ts ih =>
    intro b hb hlt
    have hlt' : b.failureCount + 1 + ts.length < b.failureThreshold := by
      simp only [List.length_cons] at hlt; omega
    have hstep : b.record_failure t =
        { b with failureCount := b.failureCount + 1, lastFailureTime := t } := by
      simp only [record_failure, hb]
      have h2 : ¬ b.failureThreshold ≤ b.failureCount + 1 := by omega
      simp [h2]
    have ih' := ih (b.record_failure t) (by simp [hstep, hb]) (by simp [hstep]; omega)
    simp only [failRun]
    refine ⟨ih'.1, ?_, ?_⟩
    · rw [ih'.2.1, hstep]; simp only [List.length_cons]; omega
    · rw [ih'.2.2, hstep]

/-- Recording the threshold-th consecutive failure while CLOSED opens the
circuit and stamps the failure time. -/
theorem record_failure_hits_threshold (b : CircuitBreaker) (t : ℚ)
    (hb : b.state = .closed) (hc : b.failureCount + 1 = b.failureThreshold ∨
      b.failureThreshold ≤ b.failureCount) :
    (b.record_failure t).state = .opened ∧
    (b.record_failure t).lastFailureTime = t ∧
    (b.record_failure t).recoveryTimeout = b.recoveryTimeout ∧
    (b.record_failure t).halfOpenMaxCalls = b.halfOpenMaxCalls := by
  have hle : b.failureThreshold ≤ b.failureCount + 1 := by omega
  simp [record_failure, hb, hle, transition]

/-- Once the recovery timeout has elapsed, the first `allow_request` after
an OPEN period transitions to HALF_OPEN with the probe counter reset, and
a run of calls admits exactly `min (number of calls) half_open_max_calls`
probes. -/
theorem allowRun_opened_recovered (b : CircuitBreaker) (t : ℚ) (ts : List ℚ)
    (hb : b.state = .opened) (helapsed : b.recoveryTimeout ≤ t - b.lastFailureTime) :
    ((b.allowRun (t :: ts)).2.count true) = min (ts.length + 1) b.halfOpenMaxCalls := by
  have hm : b.maybeTransitionToHalfOpen t = b.transition .halfOpen := by
    simp [maybeTransitionToHalfOpen, hb, helapsed]
  by_cases hpos : 0 < b.halfOpenMaxCalls
  · have h1 : b.allow_request t =
        ({ b.transition .halfOpen with halfOpenCalls := 0 + 1 }, true) := by
      simp [allow_request, hm, transition, hpos, hb]
    have h2 := allowRun_halfOpen_count ts
      { b.transition .halfOpen with halfOpenCalls := 0 + 1 } (by simp [transition])
    simp only [allowRun, h1, List.count_cons, List.length_cons]
    simp only [h2]
    simp [transition]
    omega
  · have h1 : b.allow_request t = (b.transition .halfOpen, false) := by
      simp [allow_request, hm, transition, hb]
      omega
    have h2 := allowRun_halfOpen_count ts (b.transition .halfOpen) (by simp [transition])
    simp only [allowRun, h1, List.count_cons, List.length_cons]
    simp only [h2]
    simp [transition]
    omega

end CircuitBreaker

namespace CircuitBreaker

theorem record_failure_preserves_config (b : CircuitBreaker) (t : ℚ) :
    (b.record_failure t).recoveryTimeout = b.recoveryTimeout ∧
    (b.record_failure t).halfOpenMaxCalls = b.halfOpenMaxCalls ∧
    (b.record_failure t).failureThreshold = b.failureThreshold := by
  cases hb : b.state <;>
    simp only [record_failure, transition, hb] <;>
    split_ifs <;> simp

theorem failRun_preserves_config (ts : List ℚ) : ∀ (b : CircuitBreaker),
    (b.failRun ts).recoveryTimeout = b.recoveryTimeout ∧
    (b.failRun ts).halfOpenMaxCalls = b.halfOpenMaxCalls := by
  induction ts with
  | nil => intro b; exact ⟨rfl, rfl⟩
  | cons t ts ih =>
    intro b
    have h := record_failure_preserves_config b t
    have ih' := ih (b.record_failure t)
    exact ⟨ih'.1.trans h.1, ih'.2.trans h.2.1⟩

theorem failRun_append (b : CircuitBreaker) (ts : List ℚ) (t : ℚ) :
    b.failRun (ts ++ [t]) = (b.failRun ts).record_failure t := by
  induction ts generalizing b with
  | nil => rfl
  | cons u ts ih => simp only [List.cons_append, failRun]; exact ih _

end CircuitBreaker

/-- C7: admission contract of the circuit breaker.  (1) `allow_request`
admits whenever the state is CLOSED; (2) while HALF_OPEN a run of calls
admits at most `half_open_max_calls` requests; (3) while OPEN and within
the recovery window it rejects; (4) after `failure_threshold` consecutive
recorded failures in CLOSED the breaker is OPEN and the next scoped entry
raises `CircuitOpenError` (so the wrapped function is not invoked);
(5) once `recovery_timeout` has elapsed since the last failure, a run of
calls admits exactly `half_open_max_calls` probes. -/
theorem circuitBreaker_admission_contract :
    (∀ (b : CircuitBreaker) (now : ℚ),
      b.state = .closed → (b.allow_request now).2 = true) ∧
    (∀ (b : CircuitBreaker) (ts : List ℚ), b.state = .halfOpen →
      ((b.allowRun ts).2.count true) ≤ b.halfOpenMaxCalls) ∧
    (∀ (b : CircuitBreaker) (now : ℚ), b.state = .opened →
      now - b.lastFailureTime < b.recoveryTimeout →
      (b.allow_request now).2 = false) ∧
    (∀ (b : CircuitBreaker) (t now : ℚ), b.state = .closed →
      b.failureCount = 0 → 1 ≤ b.failureThreshold →
      ((b.failRun (List.replicate b.failureThreshold t)).state = .opened ∧
        (now - t < b.recoveryTimeout →
          ((b.failRun (List.replicate b.failureThreshold t)).enter now).2.isSome = true))) ∧
    (∀ (b : CircuitBreaker) (t : ℚ) (ts : List ℚ), b.state = .opened →
      b.recoveryTimeout ≤ t - b.lastFailureTime →
      ((b.allowRun (t :: ts)).2.count true) = min (ts.length + 1) b.halfOpenMaxCalls) := by
  refine ⟨?_, ?_, ?_, ?_, ?_⟩
  · intro b now h
    rw [CircuitBreaker.allow_request_closed b now h]
  · intro b ts h
    have := CircuitBreaker.allowRun_halfOpen_count ts b h
    omega
  · intro b now h hearly
    rw [CircuitBreaker.allow_request_opened_early b now h hearly]
  · intro b t now hb hc hk
    set k := b.failureThreshold with hkdef
    have hrep : List.replicate k t = List.replicate (k - 1) t ++ [t] := by
      conv_lhs => rw [show k = (k - 1) + 1 by omega]
      rw [List.replicate_succ']
    have happ : b.failRun (List.replicate k t) =
        (b.failRun (List.replicate (k - 1) t)).record_failure t := by
      rw [hrep, CircuitBreaker.failRun_append]
    have hbelow := CircuitBreaker.failRun_closed_below (List.replicate (k - 1) t) b hb
      (by simp [hc]; omega)
    have hhit := CircuitBreaker.record_failure_hits_threshold
      (b.failRun (List.replicate (k - 1) t)) t hbelow.1
      (by left; rw [hbelow.2.1, hbelow.2.2, hc]; simp; omega)
    have hcfg := CircuitBreaker.failRun_preserves_config (List.replicate (k - 1) t) b
    constructor
    · rw [happ]; exact hhit.1
    · intro hnow
      rw [happ]
      have hreject := CircuitBreaker.allow_request_opened_early
        ((b.failRun (List.replicate (k - 1) t)).record_failure t) now hhit.1
        (by rw [hhit.2.1, hhit.2.2.1, hcfg.1]; exact hnow)
      simp [CircuitBreaker.enter, hreject]
  · intro b t ts hb helapsed
    exact CircuitBreaker.allowRun_opened_recovered b t ts hb helapsed

/-- Witness for `circuitBreaker_admission_contract` at concrete breakers:
a fresh breaker admits; a fresh HALF_OPEN breaker admits at most 2 of 3
calls; an OPEN breaker rejects 30 s after the failure; 5 failures at t=7
open the circuit and the entry at t=10 raises; at t=60 after a failure at
t=0, four calls admit exactly `min 4 2` probes. -/
theorem circuitBreaker_admission_contract_witness :
    ((({} : CircuitBreaker).allow_request 0).2 = true) ∧
    (((⟨5, 60, 2, .halfOpen, 0, 0, 0, 0⟩ : CircuitBreaker).allowRun [1, 2, 3]).2.count true ≤ 2) ∧
    (((⟨5, 60, 2, .opened, 5, 0, 0, 0⟩ : CircuitBreaker).allow_request 30).2 = false) ∧
    (((⟨5, 60, 2, .closed, 0, 0, 0, 0⟩ : CircuitBreaker).failRun
        (List.replicate 5 (7 : ℚ))).state = .opened) ∧
    ((((⟨5, 60, 2, .closed, 0, 0, 0, 0⟩ : CircuitBreaker).failRun
        (List.replicate 5 (7 : ℚ))).enter 10).2.isSome = true) ∧
    (((⟨5, 60, 2, .opened, 5, 0, 0, 0⟩ : CircuitBreaker).allowRun
        [60, 61, 62, 63]).2.count true = min ([(61 : ℚ), 62, 63].length + 1) 2) := by
  obtain ⟨h1, h2, h3, h4, h5⟩ := circuitBreaker_admission_contract
  have hb4 := h4 (⟨5, 60, 2, .closed, 0, 0, 0, 0⟩ : CircuitBreaker) 7 10 rfl rfl (by norm_num)
  exact ⟨h1 _ 0 rfl, h2 _ _ rfl, h3 _ 30 rfl (by norm_num), hb4.1,
    hb4.2 (by norm_num), h5 _ 60 [61, 62, 63] rfl (by norm_num)⟩

/-!
## Monitoring: throughput formulas (claim C9)
-/

theorem dropWhile_idem {α : Type} (p : α → Bool) (l : List α) :
    (l.dropWhile p).dropWhile p = l.dropWhile p := by
  induction l with
  | nil => rfl
  | cons a l ih =>
    by_cases h : p a <;> simp [List.dropWhile_cons, h, ih]

namespace MonitoringService

theorem evictOldEntries_idem (w : List (ℚ × ℚ)) (now : ℚ) :
    evictOldEntries (evictOldEntries w now) now = evictOldEntries w now :=
  dropWhile_idem _ w

/-- The `documents_per_hour` gauge written by `_update_derived_metrics` is
the size of the evicted sliding window divided by the window length in
hours. -/
theorem updateDerivedMetrics_gauge (m : MonitoringService) (now : ℚ) :
    (m.updateDerivedMetrics now).documentsPerHourGauge =
      pyRound1 (((evictOldEntries m.processingWindow now).length : ℚ) /
        max (windowSeconds / 3600) (1 / 1000)) := by
  simp only [updateDerivedMetrics]
  split_ifs <;> simp

end MonitoringService

/-- Monitoring state after one processing event recorded at `t = 0` with
duration 5 s (the state a fresh service reaches after one
`record_processing(…, duration=5, success=True)` call). -/
def monitoringCxState : MonitoringService :=
  { processingWindow := [(0, 5)], processedCount := 1,
    documentsPerHourGauge := 1, p95Gauge := 5 }

/-- C9 (counterexample): the snapshot path `_get_current_metrics` does not
compute throughput as `|window| / (W/3600)`.  With one event in the window
and a snapshot taken at `t = 0`, the claimed formula yields 1 doc/hour,
but the code reports
`processed_count / max(uptime_hours, 0.001) = 1 / 0.001 = 1000`. -/
theorem monitoring_snapshot_throughput_cx :
    ((monitoringCxState.getCurrentMetrics 0).1.docsPerHour ≠
      ((MonitoringService.evictOldEntries monitoringCxState.processingWindow 0).length : ℚ) /
        (windowSeconds / 3600)) := by
  have hmax : max (((0 : ℚ) - 0) / 3600) (1 / 1000) = 1 / 1000 := by norm_num
  show pyRound1 (((1 : Nat) : ℚ) / max (((0 : ℚ) - 0) / 3600) (1 / 1000)) ≠ _
  rw [hmax]
  simp only [MonitoringService.evictOldEntries, monitoringCxState, List.dropWhile_cons,
    windowSeconds]
  norm_num [pyRound1, round_eq]

/-- C9 (amended): the throughput metric equals `|window| / (W/3600)`
documents per hour only on the recording path — `record_processing`
(via `_update_derived_metrics`) sets the `documents_per_hour` gauge to the
evicted window size divided by `W/3600` hours.  The snapshot path
(`_get_current_metrics`, used by `get_dashboard_metrics` and
`save_snapshot`) instead reports
`processed_count / max((now − window_start)/3600, 0.001)`, a cumulative
lifetime rate. -/
theorem monitoring_throughput_formulas :
    (∀ (m : MonitoringService) (now duration : ℚ) (success : Bool),
      (m.record_processing now duration success).documentsPerHourGauge =
        pyRound1 (((MonitoringService.evictOldEntries
            (m.processingWindow ++ [(now, duration)]) now).length : ℚ) /
          (windowSeconds / 3600))) ∧
    (∀ (m : MonitoringService) (now : ℚ),
      ((m.getCurrentMetrics now).1.docsPerHour =
        pyRound1 ((m.processedCount : ℚ) /
          max ((now - m.windowStart) / 3600) (1 / 1000)))) := by
  constructor
  · intro m now duration success
    have h := MonitoringService.updateDerivedMetrics_gauge
      { m with
        processingWindow :=
          MonitoringService.evictOldEntries (m.processingWindow ++ [(now, duration)]) now,
        processedCount := m.processedCount + 1,
        errorCount := m.errorCount + (if success then 0 else 1) } now
    have hmax : max (windowSeconds / 3600) ((1 : ℚ) / 1000) = windowSeconds / 3600 := by
      rw [max_eq_left]; rw [windowSeconds]; norm_num
    rw [MonitoringService.record_processing, h, hmax]
    simp [MonitoringService.evictOldEntries_idem]
  · intro m now
    rfl

/-!
## Review queue data model

Rows of the `review_items`, `extracted_fields` and `audit_log` tables
(schema in `database.py`), and the operations of
`ReviewQueueService` / `StorageService` that mutate them.  Primary keys
generated by `uuid.uuid4()` are modelled as naturals allocated from the
`nextId` counter of the database state.
-/

/-- `ReviewStatus` (`schemas.py`). -/
inductive ReviewStatus
  | pending
  | inReview
  | approved
  | corrected
  | rejected
deriving DecidableEq, Repr

/-- The terminal review statuses `{approved, corrected, rejected}`. -/
def ReviewStatus.isTerminal : ReviewStatus → Bool
  | .approved => true
  | .corrected => true
  | .rejected => true
  | _ => false

/-- `ReviewAction` (`schemas.py`). -/
inductive ReviewAction
  | approve
  | correct
  | reject
deriving DecidableEq, Repr

/-- A row of `extracted_fields`. -/
structure FieldRow where
  id : Nat
  reviewItemId : Nat
  fieldName : String
  value : Option String
  confidence : ℚ
  manuallyCorrected : Bool := false
  correctedAt : Option ℚ := none
  correctedBy : Option String := none
  locked : Bool := false
deriving DecidableEq, Repr

/-- A row of `review_items`. -/
structure ItemRow where
  id : Nat
  documentId : String
  filename : String
  status : ReviewStatus
  priority : ℚ
  slaDeadline : Option ℚ := none
  assignedTo : Option String := none
  createdAt : ℚ
  claimedAt : Option ℚ := none
  completedAt : Option ℚ := none
deriving DecidableEq, Repr

/-- A row of `audit_log` (the serial `id` column is the list position). -/
structure AuditRow where
  itemId : Nat
  action : String
  fieldName : Option String := none
  oldValue : Option String := none
  newValue : Option String := none
  actor : Option String := none
  createdAt : ℚ
deriving DecidableEq, Repr

/-- The review-queue portion of the database, plus the fresh-key counter. -/
structure ReviewDB where
  reviewItems : List ItemRow := []
  extractedFields : List FieldRow := []
  auditLog : List AuditRow := []
  nextId : Nat := 0
deriving DecidableEq, Repr

/-- `FieldConfidence` (`schemas.py`); the value is pre-encoded as the
string the services store (`str(fc.value)` over the wire). -/
structure FieldConfidence where
  fieldName : String
  value : Option String
  confidence : ℚ
deriving DecidableEq, Repr

/-- The parts of `InvoiceData` the modelled services read: the number of
line items and the invoice total. -/
structure InvoiceData where
  lineItemCount : Nat
  total : Option ℚ
deriving DecidableEq, Repr

/-- The parts of `ExtractionResult` (`schemas.py`) the modelled services
read. -/
structure ExtractionResult where
  documentId : String
  filename : String
  invoiceData : InvoiceData
  fieldConfidences : List FieldConfidence
  overallConfidence : ℚ
  contentHash : Option String
deriving DecidableEq, Repr

/-- `calculate_priority` (`review_queue_service.py`).  Time is in seconds
(`hours_left = (sla_deadline − now).total_seconds()/3600`). -/
def calculate_priority (confidenceAvg : ℚ) (slaDeadline : Option ℚ) (now : ℚ)
    (numLineItems : Nat) (totalAmount : ℚ) : ℚ :=
  let confScore := (100 - confidenceAvg * 100) * (4 / 10)
  let slaScore : ℚ :=
    match slaDeadline with
    | some d =>
      let hoursLeft := max ((d - now) / 3600) 0
      max ((24 - hoursLeft) / 24) 0 * (3 / 10) * 100
    | none => 0
  let itemsScore := min ((numLineItems : ℚ) / 100) 1 * (2 / 10) * 100
  let valueScore := min (totalAmount / 10000) 1 * (1 / 10) * 100
  pyRound2 (confScore + slaScore + itemsScore + valueScore)

namespace ReviewDB

/-- The row inserted by the per-field insert loop of
`StorageService.create_review_item` (`locked`, `manually_corrected` etc.
take their column defaults). -/
def newFieldRow (nid itemId : Nat) (fc : FieldConfidence) : FieldRow :=
  { id := nid, reviewItemId := itemId, fieldName := fc.fieldName,
    value := fc.value, confidence := fc.confidence }

/-- The per-field insert loop of `StorageService.create_review_item` (see
the doc comment above `newFieldRow`): for each extracted field a fresh key
is generated, and the row is inserted only when no locked row with the
same `(review_item_id, field_name)` exists. -/
def insertFields (itemId : Nat) :
    List FieldConfidence → List FieldRow → Nat → List FieldRow × Nat
  | [], fields, nid => (fields, nid)
  | fc :: rest, fields, nid =>
    if fields.any (fun f =>
        f.reviewItemId == itemId && f.fieldName == fc.fieldName && f.locked) then
      insertFields itemId rest fields (nid + 1)
    else
      insertFields itemId rest (fields ++ [newFieldRow nid itemId fc]) (nid + 1)

/-- `get_reviewer_workload` restricted to one reviewer: the number of
`pending`/`in_review` items assigned to them (`workload.get(r, 0)`). -/
def reviewerWorkload (db : ReviewDB) (r : String) : Nat :=
  (db.reviewItems.filter (fun i =>
    (i.status == ReviewStatus.pending || i.status == ReviewStatus.inReview) &&
      i.assignedTo == some r)).length

/-- `StorageService._auto_assign_least_loaded`: pick the least-loaded
roster reviewer (ties broken round-robin by the shared counter `rrIdx`,
the Redis `INCR` value), set `assigned_to` where the item is still
`pending`, and append an `auto_assign` audit row. -/
def autoAssignLeastLoaded (db : ReviewDB) (itemId : Nat) (roster : List String)
    (rrIdx : Nat) (now : ℚ) : ReviewDB :=
  match roster with
  | [] => db
  | r0 :: rest =>
    let minLoad := ((r0 :: rest).map (db.reviewerWorkload ·)).foldl min
      (db.reviewerWorkload r0)
    let tied := (r0 :: rest).filter (fun r => db.reviewerWorkload r == minLoad)
    let reviewer := if tied.length == 1 then tied.getD 0 r0
      else tied.getD (rrIdx % tied.length) r0
    { db with
      reviewItems := db.reviewItems.map (fun i =>
        if i.id == itemId && i.status == ReviewStatus.pending then
          { i with assignedTo := some reviewer }
        else i),
      auditLog := db.auditLog ++
        [{ itemId := itemId, action := "auto_assign", actor := some reviewer,
           createdAt := now }] }

/-- The review-item upsert of `StorageService.create_review_item`:
`INSERT ... ON CONFLICT (document_id) DO UPDATE SET priority, sla_deadline
RETURNING id`.  Returns the updated `review_items` rows, the id the
`RETURNING` clause yields (the existing row's id on conflict), and the
next fresh key (a fresh uuid is generated even when the conflict branch
discards it). -/
def upsertReviewItem (db : ReviewDB) (result : ExtractionResult)
    (priority : ℚ) (now : ℚ) : List ItemRow × Nat × Nat :=
  match db.reviewItems.find? (fun r => r.documentId == result.documentId) with
  | some existing =>
    (db.reviewItems.map (fun r =>
      if r.documentId == result.documentId then
        { r with priority := priority, slaDeadline := none }
      else r), existing.id, db.nextId + 1)
  | none =>
    (db.reviewItems ++
      [{ id := db.nextId, documentId := result.documentId,
         filename := result.filename, status := ReviewStatus.pending,
         priority := priority, createdAt := now }],
     db.nextId, db.nextId + 1)

/-- `StorageService.create_review_item`: upsert the review item by
`document_id` (on conflict only `priority` and `sla_deadline` are
updated), delete the non-locked extracted fields of that item, insert the
new fields unless blocked by a locked row, then auto-assign.  The SLA
deadline is `None` at creation (it is set by `claim_item`). -/
def create_review_item (db : ReviewDB) (result : ExtractionResult) (now : ℚ)
    (roster : List String) (rrIdx : Nat) : ReviewDB :=
  let priority := calculate_priority result.overallConfidence none now
    result.invoiceData.lineItemCount (result.invoiceData.total.getD 0)
  let upsert := db.upsertReviewItem result priority now
  let actualId := upsert.2.1
  let remaining := db.extractedFields.filter (fun f =>
    !(f.reviewItemId == actualId && !f.locked))
  let inserted := insertFields actualId result.fieldConfidences remaining upsert.2.2
  ReviewDB.autoAssignLeastLoaded
    { db with reviewItems := upsert.1, extractedFields := inserted.1,
              nextId := inserted.2 }
    actualId roster rrIdx now

/-- `ReviewSubmission` (`schemas.py`); the `corrections` dict is a list of
`(field_name, new_value)` pairs in insertion order. -/
structure Submission where
  action : ReviewAction
  corrections : List (String × String) := []
  reason : Option String := none
deriving DecidableEq, Repr

/-- The `UPDATE extracted_fields SET value=?, manually_corrected=TRUE,
corrected_at=?, corrected_by=?, locked=TRUE WHERE id=?` of
`submit_review`, as a per-row function. -/
def correctedFieldRow (rowId : Nat) (newValue : String) (reviewer : String)
    (now : ℚ) (f : FieldRow) : FieldRow :=
  if f.id == rowId then
    { f with value := some newValue, manuallyCorrected := true,
             correctedAt := some now, correctedBy := some reviewer,
             locked := true }
  else f

/-- One iteration of the corrections loop of
`ReviewQueueService.submit_review` (see `correctedFieldRow` for the row
update): look up the field row by `(review_item_id, field_name)`; missing
row → skip; locked row → skip silently; otherwise update the row and
append a `correction` audit row recording the old and new values. -/
def applyCorrection (itemId : Nat) (reviewer : String) (now : ℚ)
    (db : ReviewDB) (c : String × String) : ReviewDB :=
  match db.extractedFields.find? (fun f =>
      f.reviewItemId == itemId && f.fieldName == c.1) with
  | none => db
  | some row =>
    if row.locked then db
    else
      { db with
        extractedFields :=
          db.extractedFields.map (correctedFieldRow row.id c.2 reviewer now),
        auditLog := db.auditLog ++
          [{ itemId := itemId, action := "correction", fieldName := some c.1,
             oldValue := row.value, newValue := some c.2,
             actor := some reviewer, createdAt := now }] }

/-- The `action → status` mapping of `submit_review`. -/
def actionToStatus : ReviewAction → ReviewStatus
  | .approve => .approved
  | .correct => .corrected
  | .reject => .rejected

/-- `ReviewQueueService.submit_review`: set the item status and
`completed_at` (no status guard in the `UPDATE`), apply the corrections
skipping locked fields, then append the `rejection` / `approval` audit
rows. -/
def submit_review (db : ReviewDB) (itemId : Nat) (sub : Submission)
    (reviewer : String) (now : ℚ) : ReviewDB :=
  let newStatus := actionToStatus sub.action
  let db := { db with reviewItems := db.reviewItems.map (fun r =>
    if r.id == itemId then { r with status := newStatus, completedAt := some now }
    else r) }
  let db := sub.corrections.foldl (applyCorrection itemId reviewer now) db
  let db :=
    if sub.action = ReviewAction.reject ∧ sub.reason.isSome then
      { db with auditLog := db.auditLog ++
        [{ itemId := itemId, action := "rejection", newValue := sub.reason,
           actor := some reviewer, createdAt := now }] }
    else db
  if sub.action = ReviewAction.approve then
    { db with auditLog := db.auditLog ++
      [{ itemId := itemId, action := "approval", actor := some reviewer,
         createdAt := now }] }
  else db

/-- `ReviewQueueService.claim_item`: the atomic conditional update
`UPDATE review_items SET status='in_review', assigned_to=?, claimed_at=now,
sla_deadline=now+sla_default WHERE id=? AND status='pending'`.  Returns
the updated database and whether a row was claimed; the `start_review`
audit row is appended only when the update matched. -/
def claim_item (db : ReviewDB) (itemId : Nat) (reviewer : String) (now : ℚ)
    (slaDefaultHours : ℚ) : ReviewDB × Bool :=
  let slaDeadline := now + slaDefaultHours * 3600
  let matched := db.reviewItems.filter (fun r =>
    r.id == itemId && r.status == ReviewStatus.pending)
  let db := { db with reviewItems := db.reviewItems.map (fun r =>
    if r.id == itemId && r.status == ReviewStatus.pending then
      { r with status := ReviewStatus.inReview, assignedTo := some reviewer,
               claimedAt := some now, slaDeadline := some slaDeadline }
    else r) }
  if matched.length == 0 then (db, false)
  else
    ({ db with auditLog := db.auditLog ++
        [{ itemId := itemId, action := "start_review", actor := some reviewer,
           createdAt := now }] }, true)

/-- `ReviewQueueService.release_expired_claims` (also
`tasks.release_expired_claims`): one `UPDATE` resetting every `in_review`
item claimed before `now − claim_expiry` back to `pending` with
`assigned_to`, `claimed_at` and `sla_deadline` cleared; returns the count
released.  (`claimed_at < cutoff` is false on SQL NULL.) -/
def release_expired_claims (db : ReviewDB) (now expiryMinutes : ℚ) :
    ReviewDB × Nat :=
  let cutoff := now - expiryMinutes * 60
  let isExpired : ItemRow → Bool := fun r =>
    r.status == ReviewStatus.inReview &&
      (match r.claimedAt with
       | some t => decide (t < cutoff)
       | none => false)
  let released := (db.reviewItems.filter isExpired).length
  ({ db with reviewItems := db.reviewItems.map (fun r =>
      if isExpired r then
        { r with status := ReviewStatus.pending, assignedTo := none,
                 claimedAt := none, slaDeadline := none }
      else r) }, released)

end ReviewDB

/-!
## Field locking (claim C1)
-/

namespace ReviewDB

/-- Wellformedness of the extracted-field table: primary keys are distinct
and below the fresh-key counter. -/
def fieldIdsOk (db : ReviewDB) : Prop :=
  (db.extractedFields.map FieldRow.id).Nodup ∧
  ∀ f ∈ db.extractedFields, f.id < db.nextId

theorem insertFields_spec (itemId : Nat) (fcs : List FieldConfidence) :
    ∀ (fields : List FieldRow) (nid : Nat),
      (fields.map FieldRow.id).Nodup → (∀ f ∈ fields, f.id < nid) →
      nid ≤ (insertFields itemId fcs fields nid).2 ∧
      ((insertFields itemId fcs fields nid).1.map FieldRow.id).Nodup ∧
      (∀ f ∈ (insertFields itemId fcs fields nid).1,
        f.id < (insertFields itemId fcs fields nid).2) ∧
      (∀ f ∈ fields, f ∈ (insertFields itemId fcs fields nid).1) := by
  induction fcs with
  | nil =>
    intro fields nid h1 h2
    exact ⟨Nat.le_refl _, h1, h2, fun f hf => hf⟩
  | cons fc rest ih =>
    intro fields nid h1 h2
    by_cases hex : (fields.any (fun f =>
        f.reviewItemId == itemId && f.fieldName == fc.fieldName && f.locked)) = true
    · have ihr := ih fields (nid + 1) h1 (fun f hf => Nat.lt_succ_of_lt (h2 f hf))
      simp only [insertFields, hex, if_true]
      exact ⟨Nat.le_of_succ_le ihr.1, ihr.2⟩
    · have hnotin : nid ∉ fields.map FieldRow.id := by
        intro hmem
        obtain ⟨f, hf, hid⟩ := List.mem_map.1 hmem
        exact absurd hid (Nat.ne_of_lt (h2 f hf))
      have h1' : ((fields ++ [newFieldRow nid itemId fc]).map FieldRow.id).Nodup := by
        simp only [List.map_append, List.map_cons, List.map_nil]
        rw [List.nodup_append]
        exact ⟨h1, List.nodup_singleton _, by simpa [newFieldRow] using hnotin⟩
      have h2' : ∀ f ∈ (fields ++ [newFieldRow nid itemId fc]), f.id < nid + 1 := by
        intro f hf
        rcases List.mem_append.1 hf with hf | hf
        · exact Nat.lt_succ_of_lt (h2 f hf)
        · simp at hf; subst hf; exact Nat.lt_succ_self _
      have ihr := ih _ (nid + 1) h1' h2'
      simp only [insertFields, hex, if_false]
      exact ⟨Nat.le_of_succ_le ihr.1, ihr.2.1, ihr.2.2.1,
        fun f hf => ihr.2.2.2 f (List.mem_append.2 (Or.inl hf))⟩

theorem autoAssign_preserves_fields (db : ReviewDB) (itemId : Nat)
    (roster : List String) (rrIdx : Nat) (now : ℚ) :
    (db.autoAssignLeastLoaded itemId roster rrIdx now).extractedFields =
      db.extractedFields ∧
    (db.autoAssignLeastLoaded itemId roster rrIdx now).nextId = db.nextId := by
  cases roster <;> simp [autoAssignLeastLoaded]

theorem upsertReviewItem_nextId (db : ReviewDB) (result : ExtractionResult)
    (priority now : ℚ) :
    (db.upsertReviewItem result priority now).2.2 = db.nextId + 1 := by
  unfold upsertReviewItem
  cases db.reviewItems.find? (fun r => r.documentId == result.documentId) <;> rfl

/-- `create_review_item` preserves wellformedness and keeps every locked
field row untouched: it deletes only rows with `locked = FALSE` and its
inserts are fresh rows. -/
theorem create_review_item_preserves_locked (db : ReviewDB)
    (result : ExtractionResult) (now : ℚ) (roster : List String) (rrIdx : Nat)
    (hwf : db.fieldIdsOk) :
    (db.create_review_item result now roster rrIdx).fieldIdsOk ∧
    ∀ f ∈ db.extractedFields, f.locked = true →
      f ∈ (db.create_review_item result now roster rrIdx).extractedFields := by
  unfold create_review_item
  have hauto := autoAssign_preserves_fields
    { db with
      reviewItems := (db.upsertReviewItem result
        (calculate_priority result.overallConfidence none now
          result.invoiceData.lineItemCount (result.invoiceData.total.getD 0)) now).1,
      extractedFields := (insertFields
        (db.upsertReviewItem result
          (calculate_priority result.overallConfidence none now
            result.invoiceData.lineItemCount (result.invoiceData.total.getD 0)) now).2.1
        result.fieldConfidences
        (db.extractedFields.filter (fun f =>
          !(f.reviewItemId == (db.upsertReviewItem result
            (calculate_priority result.overallConfidence none now
              result.invoiceData.lineItemCount (result.invoiceData.total.getD 0)) now).2.1
            && !f.locked)))
        (db.upsertReviewItem result
          (calculate_priority result.overallConfidence none now
            result.invoiceData.lineItemCount (result.invoiceData.total.getD 0)) now).2.2).1,
      nextId := (insertFields
        (db.upsertReviewItem result
          (calculate_priority result.overallConfidence none now
            result.invoiceData.lineItemCount (result.invoiceData.total.getD 0)) now).2.1
        result.fieldConfidences
        (db.extractedFields.filter (fun f =>
          !(f.reviewItemId == (db.upsertReviewItem result
            (calculate_priority result.overallConfidence none now
              result.invoiceData.lineItemCount (result.invoiceData.total.getD 0)) now).2.1
            && !f.locked)))
        (db.upsertReviewItem result
          (calculate_priority result.overallConfidence none now
            result.invoiceData.lineItemCount (result.invoiceData.total.getD 0)) now).2.2).2 }
    (db.upsertReviewItem result
      (calculate_priority result.overallConfidence none now
        result.invoiceData.lineItemCount (result.invoiceData.total.getD 0)) now).2.1
    roster rrIdx now
  set priority := calculate_priority result.overallConfidence none now
    result.invoiceData.lineItemCount (result.invoiceData.total.getD 0) with hpr
  set ups := db.upsertReviewItem result priority now with hups
  set remaining := db.extractedFields.filter (fun f =>
    !(f.reviewItemId == ups.2.1 && !f.locked)) with hrem
  have hremsub : remaining.Sublist db.extractedFields := List.filter_sublist _
  have hremnodup : (remaining.map FieldRow.id).Nodup :=
    (hremsub.map FieldRow.id).nodup hwf.1
  have hrembound : ∀ f ∈ remaining, f.id < ups.2.2 := by
    intro f hf
    have := hwf.2 f (hremsub.mem hf)
    rw [upsertReviewItem_nextId]
    omega
  have hins := insertFields_spec ups.2.1 result.fieldConfidences remaining ups.2.2
    hremnodup hrembound
  constructor
  · constructor
    · rw [hauto.1]; exact hins.2.1
    · rw [hauto.1, hauto.2]; exact hins.2.2.1
  · intro f hf hlock
    rw [hauto.1]
    apply hins.2.2.2
    rw [hrem]
    apply List.mem_filter.2
    refine ⟨hf, ?_⟩
    simp [hlock]

theorem correctedFieldRow_id (rowId : Nat) (v reviewer : String) (now : ℚ)
    (f : FieldRow) : (correctedFieldRow rowId v reviewer now f).id = f.id := by
  unfold correctedFieldRow; split <;> rfl

theorem map_update_ids (l : List FieldRow) (g : FieldRow → FieldRow)
    (hg : ∀ f, (g f).id = f.id) :
    (l.map g).map FieldRow.id = l.map FieldRow.id := by
  rw [List.map_map]
  exact List.map_congr_left (fun f _ => hg f)

theorem applyCorrection_preserves (itemId : Nat) (reviewer : String) (now : ℚ)
    (db : ReviewDB) (c : String × String) (hwf : db.fieldIdsOk) :
    (applyCorrection itemId reviewer now db c).fieldIdsOk ∧
    ∀ f ∈ db.extractedFields, f.locked = true →
      f ∈ (applyCorrection itemId reviewer now db c).extractedFields := by
  unfold applyCorrection
  cases hfind : db.extractedFields.find? (fun f =>
      f.reviewItemId == itemId && f.fieldName == c.1) with
  | none => exact ⟨hwf, fun f hf _ => hf⟩
  | some row =>
    by_cases hlockrow : row.locked = true
    · simp only [hlockrow, if_true]
      exact ⟨hwf, fun f hf _ => hf⟩
    · simp only [hlockrow, if_false]
      have hrowmem : row ∈ db.extractedFields := List.mem_of_find?_eq_some hfind
      have hids := map_update_ids db.extractedFields
        (correctedFieldRow row.id c.2 reviewer now)
        (correctedFieldRow_id row.id c.2 reviewer now)
      refine ⟨⟨?_, ?_⟩, ?_⟩
      · show ((db.extractedFields.map _).map FieldRow.id).Nodup
        rw [hids]; exact hwf.1
      · intro f' hf'
        obtain ⟨f, hf, rfl⟩ := List.mem_map.1 hf'
        rw [correctedFieldRow_id]
        exact hwf.2 f hf
      · intro f hf hfl
        have hne : (f.id == row.id) = false := by
          rw [beq_eq_false_iff_ne]
          intro heq
          have hfeq : f = row := List.inj_on_of_nodup_map hwf.1 hf hrowmem heq
          rw [hfeq] at hfl
          exact hlockrow hfl
        have hmem := List.mem_map_of_mem
          (correctedFieldRow row.id c.2 reviewer now) hf
        have himg : correctedFieldRow row.id c.2 reviewer now f = f := by
          unfold correctedFieldRow
          rw [hne]
          rfl
        rwa [himg] at hmem

theorem foldl_corrections_preserves (itemId : Nat) (reviewer : String)
    (now : ℚ) (cs : List (String × String)) :
    ∀ (db : ReviewDB), db.fieldIdsOk →
      (cs.foldl (applyCorrection itemId reviewer now) db).fieldIdsOk ∧
      ∀ f ∈ db.extractedFields, f.locked = true →
        f ∈ (cs.foldl (applyCorrection itemId reviewer now) db).extractedFields := by
  induction cs with
  | nil => intro db hwf; exact ⟨hwf, fun f hf _ => hf⟩
  | cons c cs ih =>
    intro db hwf
    have h1 := applyCorrection_preserves itemId reviewer now db c hwf
    have h2 := ih (applyCorrection itemId reviewer now db c) h1.1
    exact ⟨h2.1, fun f hf hfl => h2.2 f (h1.2 f hf hfl) hfl⟩

/-- `submit_review` preserves wellformedness and keeps every locked field
row untouched: corrections aimed at a locked field are skipped. -/
theorem submit_review_preserves_locked (db : ReviewDB) (itemId : Nat)
    (sub : Submission) (reviewer : String) (now : ℚ) (hwf : db.fieldIdsOk) :
    (db.submit_review itemId sub reviewer now).fieldIdsOk ∧
    ∀ f ∈ db.extractedFields, f.locked = true →
      f ∈ (db.submit_review itemId sub reviewer now).extractedFields := by
  unfold submit_review
  have hstep := foldl_corrections_preserves itemId reviewer now sub.corrections
    { db with reviewItems := db.reviewItems.map (fun r =>
        if r.id == itemId then
          { r with status := actionToStatus sub.action, completedAt := some now }
        else r) }
    hwf
  constructor
  · split_ifs <;> exact hstep.1
  · intro f hf hfl
    split_ifs <;> exact hstep.2 f hf hfl

/-- The operations claim C1 quantifies over: re-materializations
(`create_review_item`) and review submissions (`submit_review`), with all
their call-site parameters. -/
inductive QueueOp
  | create (result : ExtractionResult) (now : ℚ) (roster : List String) (rrIdx : Nat)
  | submit (itemId : Nat) (sub : Submission) (reviewer : String) (now : ℚ)

/-- Apply one queue operation to the database. -/
def applyOp (db : ReviewDB) : QueueOp → ReviewDB
  | .create result now roster rrIdx => db.create_review_item result now roster rrIdx
  | .submit itemId sub reviewer now => db.submit_review itemId sub reviewer now

/-- Apply a sequence of queue operations. -/
def applyOps (db : ReviewDB) (ops : List QueueOp) : ReviewDB :=
  ops.foldl applyOp db

theorem applyOp_preserves_locked (db : ReviewDB) (op : QueueOp)
    (hwf : db.fieldIdsOk) :
    (db.applyOp op).fieldIdsOk ∧
    ∀ f ∈ db.extractedFields, f.locked = true →
      f ∈ (db.applyOp op).extractedFields := by
  cases op with
  | create result now roster rrIdx =>
    exact create_review_item_preserves_locked db result now roster rrIdx hwf
  | submit itemId sub reviewer now =>
    exact submit_review_preserves_locked db itemId sub reviewer now hwf

end ReviewDB

/-- C1: locked extracted fields are never overwritten.  For every
wellformed database and every sequence of re-materializations
(`create_review_item`) and review submissions (`submit_review`), a field
row with `locked = TRUE` survives, bit-for-bit (same key, same value,
still locked), into the final database — `create_review_item` deletes
only `locked = FALSE` rows and inserts only fresh rows (blocked whenever
a locked row with the same `(review_item_id, field_name)` exists), and
`submit_review` silently skips corrections whose target row is locked.
The final database is wellformed again, so the surviving row is the only
row with its key. -/
theorem locked_fields_never_overwritten (ops : List ReviewDB.QueueOp) :
    ∀ (db : ReviewDB), db.fieldIdsOk →
      ∀ f ∈ db.extractedFields, f.locked = true →
        f ∈ (db.applyOps ops).extractedFields ∧ (db.applyOps ops).fieldIdsOk := by
  induction ops with
  | nil => intro db hwf f hf _; exact ⟨hf, hwf⟩
  | cons op ops ih =>
    intro db hwf f hf hfl
    have h1 := ReviewDB.applyOp_preserves_locked db op hwf
    have h2 := ih (db.applyOp op) h1.1 f (h1.2 f hf hfl) hfl
    exact h2

/-- The locked field row of the C1 witness. -/
def lockedWitnessRow : FieldRow :=
  { id := 1, reviewItemId := 0, fieldName := "vendor",
    value := some "X", confidence := 1,
    manuallyCorrected := true, correctedAt := some 1,
    correctedBy := some "rev1", locked := true }

/-- The database the C1 witness starts from: one review item whose
`vendor` field was corrected to `"X"` and locked. -/
def lockedWitnessDB : ReviewDB :=
  { reviewItems := [{ id := 0, documentId := "doc-1", filename := "a.pdf",
                      status := ReviewStatus.corrected, priority := 10,
                      createdAt := 0 }],
    extractedFields := [lockedWitnessRow],
    nextId := 2 }

/-- The operations the C1 witness applies: a re-materialization carrying
`vendor = "Y"` followed by another correction attempt `vendor = "Z"`. -/
def lockedWitnessOps : List ReviewDB.QueueOp :=
  [ReviewDB.QueueOp.create
    { documentId := "doc-1", filename := "a.pdf",
      invoiceData := { lineItemCount := 0, total := some 100 },
      fieldConfidences := [{ fieldName := "vendor", value := some "Y",
                             confidence := 1 }],
      overallConfidence := 1, contentHash := some "h1" }
    5 ["rev1", "rev2"] 0,
   ReviewDB.QueueOp.submit 0 { action := ReviewAction.correct,
                               corrections := [("vendor", "Z")] } "rev2" 6]

/-- Witness for `locked_fields_never_overwritten`: the locked `vendor`
row with value `"X"` survives a re-materialization carrying
`vendor = "Y"` followed by a correction attempt `vendor = "Z"`. -/
theorem locked_fields_never_overwritten_witness :
    lockedWitnessRow ∈ (lockedWitnessDB.applyOps lockedWitnessOps).extractedFields ∧
    (lockedWitnessDB.applyOps lockedWitnessOps).fieldIdsOk :=
  locked_fields_never_overwritten lockedWitnessOps lockedWitnessDB
    (by constructor <;> decide)
    lockedWitnessRow (by rw [lockedWitnessDB]; exact List.mem_singleton_self _) rfl

/-!
## Atomic claim (claim C3)
-/

/-- The row update performed by the `claim_item` `UPDATE` on a matching
row. -/
def claimedRow (reviewer : String) (now slaDeadline : ℚ) (r : ItemRow) : ItemRow :=
  { r with status := ReviewStatus.inReview, assignedTo := some reviewer,
           claimedAt := some now, slaDeadline := some slaDeadline }

/-- C3: the claim contract.  (1) When no pending row with the item id
exists, `claim_item` leaves the database untouched (in particular no
audit row is emitted) and returns the "not available" outcome `false`
(Python `None`).  (2) When a pending row with the id exists, the call
succeeds, exactly one `start_review` audit row is appended, the row now
carries `status='in_review'`, `assigned_to=reviewer`, `claimed_at=now`,
and `sla_deadline = now + sla_default_hours` — computed from the claim
instant `now`, independent of the row's `created_at` — and rows with
other ids are unchanged. -/
theorem claim_item_contract (db : ReviewDB) (itemId : Nat) (reviewer : String)
    (now slaH : ℚ) :
    ((¬ ∃ r ∈ db.reviewItems, r.id = itemId ∧ r.status = ReviewStatus.pending) →
      db.claim_item itemId reviewer now slaH = (db, false)) ∧
    (∀ r ∈ db.reviewItems, r.id = itemId → r.status = ReviewStatus.pending →
      (db.claim_item itemId reviewer now slaH).2 = true ∧
      (db.claim_item itemId reviewer now slaH).1.auditLog =
        db.auditLog ++ [{ itemId := itemId, action := "start_review",
                          actor := some reviewer, createdAt := now }] ∧
      claimedRow reviewer now (now + slaH * 3600) r
        ∈ (db.claim_item itemId reviewer now slaH).1.reviewItems ∧
      ∀ r' ∈ db.reviewItems, r'.id ≠ itemId →
        r' ∈ (db.claim_item itemId reviewer now slaH).1.reviewItems) := by
  constructor
  · intro hnone
    have hcond : ∀ r ∈ db.reviewItems,
        (r.id == itemId && r.status == ReviewStatus.pending) = false := by
      intro r hr
      by_contra h
      rw [Bool.not_eq_false, Bool.and_eq_true, beq_iff_eq, beq_iff_eq] at h
      exact hnone ⟨r, hr, h.1, h.2⟩
    have hfil : db.reviewItems.filter (fun r =>
        r.id == itemId && r.status == ReviewStatus.pending) = [] := by
      rw [List.filter_eq_nil_iff]
      intro r hr
      simp [hcond r hr]
    have hmap : db.reviewItems.map (fun r =>
        if r.id == itemId && r.status == ReviewStatus.pending then
          { r with status := ReviewStatus.inReview, assignedTo := some reviewer,
                   claimedAt := some now,
                   slaDeadline := some (now + slaH * 3600) }
        else r) = db.reviewItems := by
      conv_rhs => rw [← List.map_id db.reviewItems]
      apply List.map_congr_left
      intro r hr
      rw [hcond r hr]
      rfl
    simp only [ReviewDB.claim_item, hfil, hmap]
    rfl
  · intro r hr hid hstatus
    have hcondr : (r.id == itemId && r.status == ReviewStatus.pending) = true := by
      rw [Bool.and_eq_true, beq_iff_eq, beq_iff_eq]
      exact ⟨hid, hstatus⟩
    have hrfil : r ∈ db.reviewItems.filter (fun r =>
        r.id == itemId && r.status == ReviewStatus.pending) :=
      List.mem_filter.2 ⟨hr, hcondr⟩
    have hlen : ((db.reviewItems.filter (fun r =>
        r.id == itemId && r.status == ReviewStatus.pending)).length == 0) = false := by
      rw [beq_eq_false_iff_ne]
      intro h0
      rw [List.length_eq_zero] at h0
      rw [h0] at hrfil
      exact absurd hrfil (List.not_mem_nil r)
    refine ⟨?_, ?_, ?_, ?_⟩
    · simp only [ReviewDB.claim_item, hlen]
      rfl
    · simp only [ReviewDB.claim_item, hlen]
      rfl
    · simp only [ReviewDB.claim_item, hlen]
      show claimedRow reviewer now (now + slaH * 3600) r ∈ db.reviewItems.map _
      refine List.mem_map.2 ⟨r, hr, ?_⟩
      simp only [hcondr, if_true]
      rfl
    · intro r' hr' hne
      simp only [ReviewDB.claim_item, hlen]
      show r' ∈ db.reviewItems.map _
      refine List.mem_map.2 ⟨r', hr', ?_⟩
      have hcondr' : (r'.id == itemId && r'.status == ReviewStatus.pending) = false := by
        cases h : (r'.id == itemId && r'.status == ReviewStatus.pending)
        · rfl
        · rw [Bool.and_eq_true, beq_iff_eq] at h
          exact absurd h.1 hne
      simp [hcondr']

/-- The pending row of the C3 witness queue. -/
def claimWitnessRow : ItemRow :=
  { id := 0, documentId := "d0", filename := "a.pdf",
    status := ReviewStatus.pending, priority := 1, createdAt := 0 }

/-- The queue the C3 witness starts from: a pending item (id 0) and an
approved item (id 1). -/
def claimWitnessDB : ReviewDB :=
  { reviewItems := [claimWitnessRow,
      { id := 1, documentId := "d1", filename := "b.pdf",
        status := ReviewStatus.approved, priority := 2, createdAt := 0 }],
    nextId := 2 }

/-- Witness for `claim_item_contract`: claiming the pending item 0 at
`now = 100` with a 24-hour SLA succeeds, audits `start_review` and stamps
`sla_deadline = 100 + 24·3600`; claiming the non-pending item 1 returns
the database unchanged with `false`. -/
theorem claim_item_contract_witness :
    ((claimWitnessDB.claim_item 0 "rev1" 100 24).2 = true) ∧
    ((claimWitnessDB.claim_item 0 "rev1" 100 24).1.auditLog =
      claimWitnessDB.auditLog ++
        [{ itemId := 0, action := "start_review", actor := some "rev1",
           createdAt := 100 }]) ∧
    (claimedRow "rev1" 100 (100 + 24 * 3600) claimWitnessRow ∈
      (claimWitnessDB.claim_item 0 "rev1" 100 24).1.reviewItems) ∧
    (claimWitnessDB.claim_item 1 "rev1" 100 24 = (claimWitnessDB, false)) := by
  have h0 := claim_item_contract claimWitnessDB 0 "rev1" 100 24
  have h1 := claim_item_contract claimWitnessDB 1 "rev1" 100 24
  have hmem : claimWitnessRow ∈ claimWitnessDB.reviewItems :=
    List.mem_cons_self _ _
  have hsucc := h0.2 _ hmem rfl rfl
  refine ⟨hsucc.1, hsucc.2.1, hsucc.2.2.1, ?_⟩
  apply h1.1
  rintro ⟨r, hr, hid, hst⟩
  have hr' : r = claimWitnessRow ∨
      r = { id := 1, documentId := "d1", filename := "b.pdf",
            status := ReviewStatus.approved, priority := 2, createdAt := 0 } := by
    simpa [claimWitnessDB] using hr
  rcases hr' with rfl | rfl
  · exact absurd hid (by decide)
  · exact absurd hst (by decide)

/-!
## Terminal review states (claim C6)
-/

/-- An already-`approved` (terminal) review item. -/
def terminalCxRow : ItemRow :=
  { id := 0, documentId := "doc-1", filename := "a.pdf",
    status := ReviewStatus.approved, priority := 0,
    createdAt := 0, claimedAt := some 1, completedAt := some 2 }

/-- A queue holding only `terminalCxRow`. -/
def terminalCxDB : ReviewDB :=
  { reviewItems := [terminalCxRow], nextId := 1 }

/-- C6 (counterexample): terminal review states are not absorbing under
`submit_review`.  The item-status `UPDATE` of `submit_review` has no
`WHERE status` guard, so submitting a `reject` against an already
`approved` item re-transitions it to `rejected`. -/
theorem submit_review_terminal_cx :
    List.map ItemRow.status terminalCxDB.reviewItems = [ReviewStatus.approved] ∧
    List.map ItemRow.status
        (terminalCxDB.submit_review 0
          { action := ReviewAction.reject, reason := some "dup" } "rev2" 5).reviewItems =
      [ReviewStatus.rejected] :=
  ⟨rfl, rfl⟩

namespace ReviewDB

theorem isTerminal_beq_false {s : ReviewStatus} (h : s.isTerminal = true) :
    (s == ReviewStatus.pending) = false ∧ (s == ReviewStatus.inReview) = false := by
  cases s <;> simp_all [ReviewStatus.isTerminal]

theorem claim_item_keeps_terminal (db : ReviewDB) (itemId : Nat)
    (reviewer : String) (now slaH : ℚ) :
    ∀ r ∈ db.reviewItems, r.status.isTerminal = true →
      ∃ r' ∈ (db.claim_item itemId reviewer now slaH).1.reviewItems,
        r'.id = r.id ∧ r'.status = r.status := by
  intro r hr hterm
  have hc : (r.id == itemId && r.status == ReviewStatus.pending) = false := by
    rw [Bool.and_eq_false_iff]
    exact Or.inr (isTerminal_beq_false hterm).1
  refine ⟨r, ?_, rfl, rfl⟩
  simp only [claim_item]
  split_ifs <;>
    exact List.mem_map.2 ⟨r, hr, by simp [hc]⟩

theorem autoAssign_keeps_terminal (db : ReviewDB) (itemId : Nat)
    (roster : List String) (rrIdx : Nat) (now : ℚ) :
    ∀ r ∈ db.reviewItems, r.status.isTerminal = true →
      ∃ r' ∈ (db.autoAssignLeastLoaded itemId roster rrIdx now).reviewItems,
        r'.id = r.id ∧ r'.status = r.status := by
  intro r hr hterm
  have hc : (r.id == itemId && r.status == ReviewStatus.pending) = false := by
    rw [Bool.and_eq_false_iff]
    exact Or.inr (isTerminal_beq_false hterm).1
  refine ⟨r, ?_, rfl, rfl⟩
  cases roster with
  | nil => exact hr
  | cons r0 rest =>
    exact List.mem_map.2 ⟨r, hr, by simp [hc]⟩

theorem release_keeps_terminal (db : ReviewDB) (now em : ℚ) :
    ∀ r ∈ db.reviewItems, r.status.isTerminal = true →
      ∃ r' ∈ (db.release_expired_claims now em).1.reviewItems,
        r'.id = r.id ∧ r'.status = r.status := by
  intro r hr hterm
  have hc : (r.status == ReviewStatus.inReview) = false :=
    (isTerminal_beq_false hterm).2
  refine ⟨r, ?_, rfl, rfl⟩
  unfold release_expired_claims
  exact List.mem_map.2 ⟨r, hr, by simp [hc]⟩

theorem create_keeps_terminal (db : ReviewDB) (result : ExtractionResult)
    (now : ℚ) (roster : List String) (rrIdx : Nat) :
    ∀ r ∈ db.reviewItems, r.status.isTerminal = true →
      ∃ r' ∈ (db.create_review_item result now roster rrIdx).reviewItems,
        r'.id = r.id ∧ r'.status = r.status := by
  intro r hr hterm
  unfold create_review_item
  -- the upsert either rewrites priority/sla of the matching row (id and
  -- status untouched) or appends a fresh row; either way a row with r's
  -- id and status is present before auto-assignment
  have hstep : ∃ r₁ ∈ (db.upsertReviewItem result
      (calculate_priority result.overallConfidence none now
        result.invoiceData.lineItemCount (result.invoiceData.total.getD 0)) now).1,
      r₁.id = r.id ∧ r₁.status = r.status ∧ r₁.status.isTerminal = true := by
    unfold upsertReviewItem
    cases db.reviewItems.find? (fun x => x.documentId == result.documentId) with
    | some existing =>
      by_cases hd : (r.documentId == result.documentId) = true
      · exact ⟨_, List.mem_map.2 ⟨r, hr, rfl⟩, by simp [hd], by simp [hd],
          by simp [hd]; exact hterm⟩
      · refine ⟨r, List.mem_map.2 ⟨r, hr, ?_⟩, rfl, rfl, hterm⟩
        simp [hd]
    | none =>
      exact ⟨r, List.mem_append.2 (Or.inl hr), rfl, rfl, hterm⟩
  obtain ⟨r₁, hr₁, hid₁, hst₁, hterm₁⟩ := hstep
  have := autoAssign_keeps_terminal
    { db with
      reviewItems := (db.upsertReviewItem result
        (calculate_priority result.overallConfidence none now
          result.invoiceData.lineItemCount (result.invoiceData.total.getD 0)) now).1,
      extractedFields := (insertFields (db.upsertReviewItem result
        (calculate_priority result.overallConfidence none now
          result.invoiceData.lineItemCount (result.invoiceData.total.getD 0)) now).2.1
        result.fieldConfidences
        (db.extractedFields.filter (fun f =>
          !(f.reviewItemId == (db.upsertReviewItem result
            (calculate_priority result.overallConfidence none now
              result.invoiceData.lineItemCount (result.invoiceData.total.getD 0)) now).2.1
            && !f.locked)))
        (db.upsertReviewItem result
          (calculate_priority result.overallConfidence none now
            result.invoiceData.lineItemCount (result.invoiceData.total.getD 0)) now).2.2).1,
      nextId := (insertFields (db.upsertReviewItem result
        (calculate_priority result.overallConfidence none now
          result.invoiceData.lineItemCount (result.invoiceData.total.getD 0)) now).2.1
        result.fieldConfidences
        (db.extractedFields.filter (fun f =>
          !(f.reviewItemId == (db.upsertReviewItem result
            (calculate_priority result.overallConfidence none now
              result.invoiceData.lineItemCount (result.invoiceData.total.getD 0)) now).2.1
            && !f.locked)))
        (db.upsertReviewItem result
          (calculate_priority result.overallConfidence none now
            result.invoiceData.lineItemCount (result.invoiceData.total.getD 0)) now).2.2).2 }
    (db.upsertReviewItem result
      (calculate_priority result.overallConfidence none now
        result.invoiceData.lineItemCount (result.invoiceData.total.getD 0)) now).2.1
    roster rrIdx now r₁ hr₁ hterm₁
  obtain ⟨r₂, hr₂, hid₂, hst₂⟩ := this
  exact ⟨r₂, hr₂, hid₂.trans hid₁, hst₂.trans hst₁⟩

end ReviewDB

/-- C6 (amended): terminal review states are absorbing under every
review-queue operation except `submit_review`: `claim_item`,
`auto_assign`, `release_expired_claims` and `create_review_item` never
change the status of an item that is `approved`, `corrected` or
`rejected` (their `UPDATE`s are guarded on `pending` / `in_review`, and
the upsert only touches `priority` / `sla_deadline`).  `submit_review`,
however, overwrites the status of its target item unconditionally (see
`submit_review_terminal_cx`), so a terminal item can be re-transitioned
by a further submission. -/
theorem terminal_states_absorbing_except_submit :
    (∀ (db : ReviewDB) (itemId : Nat) (reviewer : String) (now slaH : ℚ),
      ∀ r ∈ db.reviewItems, r.status.isTerminal = true →
        ∃ r' ∈ (db.claim_item itemId reviewer now slaH).1.reviewItems,
          r'.id = r.id ∧ r'.status = r.status) ∧
    (∀ (db : ReviewDB) (itemId : Nat) (roster : List String) (rrIdx : Nat) (now : ℚ),
      ∀ r ∈ db.reviewItems, r.status.isTerminal = true →
        ∃ r' ∈ (db.autoAssignLeastLoaded itemId roster rrIdx now).reviewItems,
          r'.id = r.id ∧ r'.status = r.status) ∧
    (∀ (db : ReviewDB) (now em : ℚ),
      ∀ r ∈ db.reviewItems, r.status.isTerminal = true →
        ∃ r' ∈ (db.release_expired_claims now em).1.reviewItems,
          r'.id = r.id ∧ r'.status = r.status) ∧
    (∀ (db : ReviewDB) (result : ExtractionResult) (now : ℚ)
        (roster : List String) (rrIdx : Nat),
      ∀ r ∈ db.reviewItems, r.status.isTerminal = true →
        ∃ r' ∈ (db.create_review_item result now roster rrIdx).reviewItems,
          r'.id = r.id ∧ r'.status = r.status) :=
  ⟨ReviewDB.claim_item_keeps_terminal, ReviewDB.autoAssign_keeps_terminal,
   ReviewDB.release_keeps_terminal, ReviewDB.create_keeps_terminal⟩

/-- Witness for `terminal_states_absorbing_except_submit` on the approved
item of `terminalCxDB`: claiming it, auto-assigning it, releasing expired
claims over it, and re-materializing its document all keep a row with its
id in status `approved`. -/
theorem terminal_states_absorbing_except_submit_witness :
    (∃ r' ∈ (terminalCxDB.claim_item 0 "rev1" 9 24).1.reviewItems,
      r'.id = 0 ∧ r'.status = ReviewStatus.approved) ∧
    (∃ r' ∈ (terminalCxDB.autoAssignLeastLoaded 0 ["rev1"] 0 9).reviewItems,
      r'.id = 0 ∧ r'.status = ReviewStatus.approved) ∧
    (∃ r' ∈ (terminalCxDB.release_expired_claims 9 30).1.reviewItems,
      r'.id = 0 ∧ r'.status = ReviewStatus.approved) ∧
    (∃ r' ∈ (terminalCxDB.create_review_item
        { documentId := "doc-1", filename := "a.pdf",
          invoiceData := { lineItemCount := 0, total := none },
          fieldConfidences := [], overallConfidence := 1,
          contentHash := none } 9 ["rev1"] 0).reviewItems,
      r'.id = 0 ∧ r'.status = ReviewStatus.approved) := by
  obtain ⟨h1, h2, h3, h4⟩ := terminal_states_absorbing_except_submit
  have hmem : terminalCxRow ∈ terminalCxDB.reviewItems :=
    List.mem_cons_self _ _
  exact ⟨h1 terminalCxDB 0 "rev1" 9 24 _ hmem rfl,
    h2 terminalCxDB 0 ["rev1"] 0 9 _ hmem rfl,
    h3 terminalCxDB 9 30 _ hmem rfl,
    h4 terminalCxDB _ 9 ["rev1"] 0 _ hmem rfl⟩

/-!
## Idempotency cache and the worker task (claim C2)

`StorageService` rows (`processed_documents`, `documents`) and the Celery
task `tasks.process_document_dag` (`celery_app.py`).  File bytes are
identified by their SHA-256 content hash (the task's only use of the file
is `compute_hash` plus handing the path to the extractor), so the task
takes the hash directly.  On a cache miss the task builds and runs the
document-processing DAG; its committed effects when every step succeeds
are exactly `save_result` (which ends in `cache_result`) followed by
`create_review_item`, and the model applies them in that order, with the
extractor's output supplied as an oracle (`none` models a failed DAG).
-/

/-- Document lifecycle status (`DocumentStatus`, restricted to the values
the worker task writes). -/
inductive DocStatus
  | queued
  | processing
  | completed
  | failed
  | duplicate
deriving DecidableEq, Repr

/-- A row of `documents` (the columns the task touches). -/
structure DocRow where
  id : String
  status : DocStatus
  errorMessage : Option String := none
deriving DecidableEq, Repr

/-- A row of `processed_documents`: the idempotency cache, keyed by
content hash, storing the serialized extraction result. -/
structure CacheRow where
  contentHash : String
  documentId : String
  filename : String
  result : ExtractionResult
  createdAt : ℚ
deriving DecidableEq, Repr

/-- The tables the worker task reads and writes. -/
structure StoreDB where
  processedDocuments : List CacheRow := []
  documents : List DocRow := []
  queue : ReviewDB := {}
deriving Repr

namespace StoreDB

/-- `StorageService.cache_result`: skip when `content_hash` is falsy
(absent or empty), otherwise `INSERT ... ON CONFLICT (content_hash) DO
NOTHING`. -/
def cache_result (db : StoreDB) (result : ExtractionResult) (now : ℚ) : StoreDB :=
  match result.contentHash with
  | none => db
  | some h =>
    if h = "" then db
    else if db.processedDocuments.any (fun c => c.contentHash == h) then db
    else { db with processedDocuments := db.processedDocuments ++
        [{ contentHash := h, documentId := result.documentId,
           filename := result.filename, result := result, createdAt := now }] }

/-- `StorageService.get_cached_result`: select the cache row by the
file's content hash and return the deserialized result. -/
def get_cached_result (db : StoreDB) (contentHash : String) : Option ExtractionResult :=
  (db.processedDocuments.find? (fun c => c.contentHash == contentHash)).map
    (fun c => c.result)

/-- The `_update_doc_status` helper of the worker tasks:
`UPDATE documents SET status=?, error_message=? WHERE id=?`. -/
def updateDocStatus (db : StoreDB) (docId : String) (status : DocStatus)
    (err : Option String) : StoreDB :=
  { db with documents := db.documents.map (fun d =>
      if d.id == docId then { d with status := status, errorMessage := err }
      else d) }

/-- `tasks.process_document_dag` (`process_document_dag_task`): mark the
document `processing`; on an idempotency-cache hit short-circuit — mark
the document `duplicate` and return a DTO that is the cached result with
`document_id` and `filename` replaced by the new upload's — without
building or executing the DAG; on a miss run the DAG (`extraction` is the
extractor oracle: `some r` = all steps succeed with result `r`, `none` =
the DAG failed), then mark `completed` or `failed`. -/
def process_document_dag_task (db : StoreDB) (documentId : String)
    (contentHash : String) (storedFilename : Option String)
    (extraction : Option ExtractionResult) (now : ℚ) (roster : List String)
    (rrIdx : Nat) : StoreDB × Option ExtractionResult :=
  let db := db.updateDocStatus documentId .processing none
  match db.get_cached_result contentHash with
  | some cached =>
    let db := db.updateDocStatus documentId .duplicate none
    let filename := storedFilename.getD (documentId ++ ".pdf")
    (db, some { cached with documentId := documentId, filename := filename })
  | none =>
    match extraction with
    | some result =>
      let db := db.cache_result result now
      let db := { db with
        queue := db.queue.create_review_item result now roster rrIdx }
      (db.updateDocStatus documentId .completed none, some result)
    | none =>
      (db.updateDocStatus documentId .failed (some "workflow failed"), none)

/-- After `updateDocStatus db docId st e`, every `documents` row with the
target id carries the written status. -/
theorem updateDocStatus_status (db : StoreDB) (docId : String)
    (st : DocStatus) (e : Option String) :
    ∀ d ∈ (db.updateDocStatus docId st e).documents,
      d.id = docId → d.status = st := by
  intro d hd hdid
  simp only [StoreDB.updateDocStatus] at hd
  obtain ⟨d₀, hd₀, rfl⟩ := List.mem_map.1 hd
  by_cases hc : (d₀.id == docId) = true
  · simp [hc]
  · simp only [hc, if_false] at hdid ⊢
    exact absurd hdid (by simpa using hc)

end StoreDB

/-- The DTO the duplicate branch returns: the cached result carrying the
new upload's `document_id` and `filename`. -/
def duplicateDTO (c : CacheRow) (docId : String)
    (storedFilename : Option String) : ExtractionResult :=
  { c.result with
    documentId := docId,
    filename := storedFilename.getD (docId ++ ".pdf") }

/-- C2: duplicate uploads short-circuit.  Hypotheses: the first upload of
the bytes (hash `h`) left a cache row `c` (the one `find?` returns) and
exactly one review item, tied to `c.documentId` (the first document).
Then for every second upload of the same bytes as document `docId`, the
task (`process_document_dag_task`) takes the cache-hit branch: the new
document's row is set to `duplicate`, the review queue is untouched — so
exactly one review item remains, still tied to the first document — and
the returned DTO is the cached result carrying its extracted fields
(`field_confidences`, `invoice_data`, confidences) but the new upload's
`document_id` and `filename`. -/
theorem duplicate_upload_short_circuits (db : StoreDB) (docId h : String)
    (storedFilename : Option String) (extraction : Option ExtractionResult)
    (now : ℚ) (roster : List String) (rrIdx : Nat) (c : CacheRow)
    (hcache : db.processedDocuments.find? (fun r => r.contentHash == h) = some c)
    (hone : db.queue.reviewItems.map ItemRow.documentId = [c.documentId]) :
    ((db.process_document_dag_task docId h storedFilename extraction now
        roster rrIdx).1.queue = db.queue ∧
     (db.process_document_dag_task docId h storedFilename extraction now
        roster rrIdx).1.queue.reviewItems.map ItemRow.documentId = [c.documentId]) ∧
    (∀ d ∈ (db.process_document_dag_task docId h storedFilename extraction now
        roster rrIdx).1.documents, d.id = docId → d.status = DocStatus.duplicate) ∧
    ((db.process_document_dag_task docId h storedFilename extraction now
        roster rrIdx).2 = some (duplicateDTO c docId storedFilename)) ∧
    ((db.process_document_dag_task docId h storedFilename extraction now
        roster rrIdx).2.map ExtractionResult.fieldConfidences =
      some c.result.fieldConfidences) := by
  have hhit : (db.updateDocStatus docId .processing none).get_cached_result h =
      some c.result := by
    simp only [StoreDB.get_cached_result, StoreDB.updateDocStatus, hcache,
      Option.map_some']
  refine ⟨⟨?_, ?_⟩, ?_, ?_, ?_⟩
  · simp only [StoreDB.process_document_dag_task, hhit]
    rfl
  · simp only [StoreDB.process_document_dag_task, hhit]
    exact hone
  · simp only [StoreDB.process_document_dag_task, hhit]
    exact StoreDB.updateDocStatus_status _ docId .duplicate none
  · simp only [StoreDB.process_document_dag_task, hhit, duplicateDTO]
  · simp only [StoreDB.process_document_dag_task, hhit, Option.map_some']

/-- The extraction result the first upload of the C2 witness produced. -/
def dupWitnessResult : ExtractionResult :=
  { documentId := "doc-1", filename := "a.pdf",
    invoiceData := { lineItemCount := 1, total := some 50 },
    fieldConfidences := [{ fieldName := "vendor", value := some "Acme",
                           confidence := 1 }],
    overallConfidence := 1, contentHash := some "h1" }

/-- The cache row the first upload of the C2 witness left behind. -/
def dupWitnessCacheRow : CacheRow :=
  { contentHash := "h1", documentId := "doc-1", filename := "a.pdf",
    result := dupWitnessResult, createdAt := 0 }

/-- State after the first upload of the C2 witness: one cache row, the
first document completed, the second document queued, one review item
tied to the first document. -/
def dupWitnessDB : StoreDB :=
  { processedDocuments := [dupWitnessCacheRow],
    documents := [{ id := "doc-1", status := DocStatus.completed },
                  { id := "doc-2", status := DocStatus.queued }],
    queue := { reviewItems := [{ id := 0, documentId := "doc-1",
                                 filename := "a.pdf",
                                 status := ReviewStatus.pending, priority := 1,
                                 createdAt := 0 }],
               nextId := 1 } }

/-- Witness for `duplicate_upload_short_circuits`: re-uploading the bytes
hashing to `"h1"` as `doc-2` leaves the review queue untouched (one item,
tied to `doc-1`), marks `doc-2` duplicate, and returns the cached result
with `doc-2`'s identity. -/
theorem duplicate_upload_short_circuits_witness :
    ((dupWitnessDB.process_document_dag_task "doc-2" "h1" none none 0 [] 0).1.queue
      = dupWitnessDB.queue) ∧
    (List.map ItemRow.documentId
        (dupWitnessDB.process_document_dag_task
          "doc-2" "h1" none none 0 [] 0).1.queue.reviewItems = ["doc-1"]) ∧
    ((dupWitnessDB.process_document_dag_task "doc-2" "h1" none none 0 [] 0).2
      = some (duplicateDTO dupWitnessCacheRow "doc-2" none)) ∧
    (List.map DocRow.status
        (dupWitnessDB.process_document_dag_task
          "doc-2" "h1" none none 0 [] 0).1.documents =
      [DocStatus.completed, DocStatus.duplicate]) := by
  have h := duplicate_upload_short_circuits dupWitnessDB "doc-2" "h1" none none
    0 [] 0 dupWitnessCacheRow rfl rfl
  exact ⟨h.1.1, h.1.2, h.2.2.1, rfl⟩

/-!
## DAG workflow executor (`workflow_executor.py`)

The steps' user-supplied callables are modelled as oracles: `attempts k`
is what the `k`-th invocation of `step.fn` (under `asyncio.wait_for`)
does — return, raise, or time out; `cond` is what evaluating
`step.condition(merged_ctx)` does; `jitterFrac n ∈ [0,1]` is the
`random.uniform(0, …)` draw scaled to its upper bound.  Step outputs feed
only `step_outputs`, which is consumed by the oracles themselves, so the
model does not carry output values; wall-clock durations are likewise not
modelled (`duration_seconds` is dropped from `StepResult`).
-/

/-- `StepStatus`. -/
inductive StepStatus
  | pending
  | running
  | completed
  | failed
  | skipped
deriving DecidableEq, Repr

/-- `StepResult` (without `output` and `duration_seconds`, see the section
comment). -/
structure StepResult where
  stepId : String
  status : StepStatus
  error : Option String := none
  retriesUsed : Nat := 0
deriving DecidableEq, Repr

/-- `WorkflowStep`: `fn` and `condition` live in the behaviour oracle;
`hasCondition` records whether `condition is not None`. -/
structure WorkflowStep where
  id : String
  dependsOn : List String := []
  maxRetries : Nat := 3
  retryBackoffBase : ℚ := 1
  hasCondition : Bool := false
  resourceTag : Option String := none
  timeoutSeconds : Option ℚ := none
deriving DecidableEq, Repr

/-- What one invocation of `step.fn` under the timeout guard does. -/
inductive AttemptOutcome
  | ok
  | exn (msg : String)
  | timedOut
deriving DecidableEq, Repr

/-- What evaluating `step.condition(merged_ctx)` does. -/
inductive CondOutcome
  | condTrue
  | condFalse
  | raises (msg : String)
deriving DecidableEq, Repr

/-- Behaviour oracle for one step. -/
structure StepBehavior where
  attempts : Nat → AttemptOutcome
  cond : CondOutcome := .condTrue
  jitterFrac : Nat → ℚ := fun _ => 0

/-- Events of one `_execute_step` call: `attemptEv k` is the `k`-th
invocation of `step.fn`; `backoffEv k d` is the `asyncio.sleep(d)` after
the failed attempt `k` (that is, before the `k`-th retry, 0-indexed). -/
inductive StepEvent
  | attemptEv (idx : Nat)
  | backoffEv (idx : Nat) (delay : ℚ)
deriving DecidableEq, Repr

/-- Predicate for `attemptEv` events. -/
def StepEvent.isAttempt : StepEvent → Bool
  | .attemptEv _ => true
  | _ => false

/-- `timeout = step.timeout_seconds or self._default_timeout` — Python
`or`, so a stored timeout of `0.0` falls back to the default. -/
def effectiveTimeout (step : WorkflowStep) (defaultTimeout : ℚ) : ℚ :=
  match step.timeoutSeconds with
  | some t => if t = 0 then defaultTimeout else t
  | none => defaultTimeout

/-- The delay slept after failed attempt `attempt` (0-indexed):
`base_delay = base · 2^attempt`, `jitter = uniform(0, base_delay · 0.5)`,
`delay = base_delay + jitter`. -/
def backoffDelay (base jitterFrac : ℚ) (attempt : Nat) : ℚ :=
  base * 2 ^ attempt + jitterFrac * (base * 2 ^ attempt * (1 / 2))

/-- The message recorded for a failed attempt. -/
def failureMessage (timeout : ℚ) : AttemptOutcome → Option String
  | .ok => none
  | .exn msg => some msg
  | .timedOut => some ("Step timed out after " ++ toString timeout ++ "s")

/-- The retry loop of `WorkflowExecutor._execute_step`
(`for attempt in range(step.max_retries + 1)` plus the post-loop FAILED
result).  `fuel` is the number of remaining loop iterations
(`max_retries + 1 − attempt`); `retries` carries the source's `retries`
variable, which is updated only in the `except` branches — so a success
reports the index of the last FAILED attempt, not the retry count. -/
def runAttempts (step : WorkflowStep) (beh : StepBehavior) (timeout : ℚ) :
    Nat → Nat → Nat → Option String → StepResult × List StepEvent
  | 0, _, retries, lastError =>
    ({ stepId := step.id, status := .failed, error := lastError,
       retriesUsed := retries }, [])
  | fuel + 1, attempt, retries, _ =>
    match beh.attempts attempt with
    | .ok =>
      ({ stepId := step.id, status := .completed, retriesUsed := retries },
       [.attemptEv attempt])
    | outcome =>
      let backs : List StepEvent :=
        if attempt < step.maxRetries then
          [.backoffEv attempt
            (backoffDelay step.retryBackoffBase (beh.jitterFrac attempt) attempt)]
        else []
      let rest := runAttempts step beh timeout fuel (attempt + 1) attempt
        (failureMessage timeout outcome)
      (rest.1, .attemptEv attempt :: (backs ++ rest.2))

/-- `WorkflowExecutor._execute_step` for one step, as the pair of its
recorded `StepResult` and its event trace: evaluate the condition (skip
on `False`, fail on a raise), otherwise run the retry loop.  (Semaphore
and rate-limiter acquisition are modelled separately, see
`ExecutorPhase` below.) -/
def executeStep (step : WorkflowStep) (beh : StepBehavior)
    (defaultTimeout : ℚ) : StepResult × List StepEvent :=
  if step.hasCondition then
    match beh.cond with
    | .condFalse => ({ stepId := step.id, status := .skipped }, [])
    | .raises msg =>
      ({ stepId := step.id, status := .failed,
         error := some ("Condition evaluation failed: " ++ msg) }, [])
    | .condTrue =>
      runAttempts step beh (effectiveTimeout step defaultTimeout)
        (step.maxRetries + 1) 0 0 none
  else
    runAttempts step beh (effectiveTimeout step defaultTimeout)
      (step.maxRetries + 1) 0 0 none

/-- `WorkflowDAG`: the insertion-ordered `_steps` dict (`add_step` rejects
duplicate ids, so theorems assume the key list is `Nodup`). -/
structure WorkflowDAG where
  steps : List WorkflowStep
deriving Repr

namespace WorkflowDAG

/-- The key list of `_steps`. -/
def stepIds (dag : WorkflowDAG) : List String :=
  dag.steps.map WorkflowStep.id

/-- `_adjacency[p]`: one edge `p → c.id` per occurrence of `p` in
`c.depends_on`, in insertion order. -/
def adjacency (dag : WorkflowDAG) (p : String) : List String :=
  dag.steps.flatMap (fun c => (c.dependsOn.filter (fun d => d == p)).map (fun _ => c.id))

/-- The in-degree table both `validate` and `get_execution_layers`
compute: for each step, the number of its dependencies that exist in
`_steps` (with multiplicity). -/
def inDegreeInit (dag : WorkflowDAG) : List (String × Nat) :=
  dag.steps.map (fun s =>
    (s.id, (s.dependsOn.filter (fun d => (dag.stepIds).contains d)).length))

/-- `in_degree[child] -= 1; if in_degree[child] == 0: append(child)` —
the decrement, plus whether the counter hit zero (Python's int goes to
−1 below zero and is then never 0, hence the old-value-1 test). -/
def decrementChild (degs : List (String × Nat)) (c : String) :
    List (String × Nat) × Bool :=
  (degs.map (fun kv => if kv.1 == c then (kv.1, kv.2 - 1) else kv),
   ((degs.find? (fun kv => kv.1 == c)).map Prod.snd == some 1))

/-- Process the out-edges of one dequeued node: decrement each child,
collecting (in edge order) the children whose in-degree hit zero. -/
def processChildren (degs : List (String × Nat)) :
    List String → List (String × Nat) × List String
  | [] => (degs, [])
  | c :: cs =>
    let s1 := decrementChild degs c
    let s2 := processChildren s1.1 cs
    (s2.1, if s1.2 then c :: s2.2 else s2.2)

/-- The FIFO Kahn loop of `validate`, returning the visited nodes in pop
order; `fuel` bounds the iterations (each node is enqueued at most once,
so `|steps| + 1` iterations never truncate the run). -/
def kahnRun (adj : String → List String) :
    Nat → List String → List (String × Nat) → List String → List String
  | 0, _, _, visited => visited.reverse
  | _ + 1, [], _, visited => visited.reverse
  | fuel + 1, q :: qs, degs, visited =>
    let s := processChildren degs (adj q)
    kahnRun adj fuel (qs ++ s.2) s.1 (q :: visited)

/-- The nodes `validate`'s Kahn pass visits. -/
def kahnVisited (dag : WorkflowDAG) : List String :=
  let degs := dag.inDegreeInit
  kahnRun dag.adjacency (dag.steps.length + 1)
    ((degs.filter (fun kv => kv.2 == 0)).map Prod.fst) degs []

/-- `WorkflowDAG.validate`: empty graph, then missing dependencies, then
the Kahn cycle check (`visited ≠ node count`). -/
def validate (dag : WorkflowDAG) : List String :=
  if dag.steps.isEmpty then ["DAG has no steps"]
  else
    let missing := dag.steps.flatMap (fun s =>
      (s.dependsOn.filter (fun d => !(dag.stepIds).contains d)).map (fun d =>
        "Step '" ++ s.id ++ "' depends on '" ++ d ++ "' which does not exist"))
    if missing ≠ [] then missing
    else if (dag.kahnVisited).length ≠ dag.steps.length then
      ["DAG contains a cycle (visited " ++ toString (dag.kahnVisited).length ++
        "/" ++ toString dag.steps.length ++ " nodes)"]
    else []

/-- Process one layer: walk its nodes in order, decrementing their
children and collecting the next layer. -/
def processLayer (adj : String → List String) :
    List String → List (String × Nat) → List (String × Nat) × List String
  | [], degs => (degs, [])
  | n :: ns, degs =>
    let s1 := processChildren degs (adj n)
    let s2 := processLayer adj ns s1.1
    (s2.1, s1.2 ++ s2.2)

/-- The layer loop of `get_execution_layers`. -/
def layersRun (adj : String → List String) :
    Nat → List String → List (String × Nat) → List (List String)
  | 0, _, _ => []
  | fuel + 1, cur, degs =>
    if cur.isEmpty then []
    else
      let s := processLayer adj cur degs
      cur :: layersRun adj fuel s.2 s.1

/-- `WorkflowDAG.get_execution_layers` (the `validate` guard lives in
`execute`, which refuses invalid DAGs before calling this). -/
def get_execution_layers (dag : WorkflowDAG) : List (List String) :=
  let degs := dag.inDegreeInit
  layersRun dag.adjacency (dag.steps.length + 1)
    ((degs.filter (fun kv => kv.2 == 0)).map Prod.fst) degs

end WorkflowDAG

/-- `WorkflowResult` (without `total_duration_seconds`); `steps` is the
insertion-ordered `results` dict. -/
structure WorkflowResult where
  success : Bool
  steps : List (String × StepResult)
  completedCount : Nat := 0
  failedCount : Nat := 0
  skippedCount : Nat := 0
deriving DecidableEq, Repr

/-- `results.get(d, StepResult(d, PENDING)).status`. -/
def lookupStatus (results : List (String × StepResult)) (d : String) : StepStatus :=
  match results.find? (fun kv => kv.1 == d) with
  | some kv => kv.2.status
  | none => .pending

/-- The per-layer body of `WorkflowExecutor.execute`: for each step of
the layer, record SKIPPED with error `"Dependency failed"` (without
invoking `_execute_step`) when some dependency's recorded status is
FAILED, else run `_execute_step`.  (The source also computes a
`dep_skipped` flag over SKIPPED dependencies but never reads it — a
SKIPPED dependency does not propagate.)  Returns the updated results
table and the event traces of the steps that ran. -/
def runLayer (dag : WorkflowDAG) (beh : String → StepBehavior)
    (defaultTimeout : ℚ) :
    List String → List (String × StepResult) → List (String × List StepEvent) →
    List (String × StepResult) × List (String × List StepEvent)
  | [], results, traces => (results, traces)
  | sid :: rest, results, traces =>
    match dag.steps.find? (fun s => s.id == sid) with
    | none => runLayer dag beh defaultTimeout rest results traces
    | some step =>
      if step.dependsOn.any (fun d => lookupStatus results d == StepStatus.failed) then
        runLayer dag beh defaultTimeout rest
          (results ++ [(sid, { stepId := sid, status := .skipped,
                               error := some "Dependency failed" })])
          traces
      else
        let r := executeStep step (beh sid) defaultTimeout
        runLayer dag beh defaultTimeout rest (results ++ [(sid, r.1)])
          (traces ++ [(sid, r.2)])

/-- The layer fold of `execute`. -/
def runLayers (dag : WorkflowDAG) (beh : String → StepBehavior)
    (defaultTimeout : ℚ) :
    List (List String) → List (String × StepResult) × List (String × List StepEvent) →
    List (String × StepResult) × List (String × List StepEvent)
  | [], acc => acc
  | layer :: rest, acc =>
    runLayers dag beh defaultTimeout rest
      (runLayer dag beh defaultTimeout layer acc.1 acc.2)

/-- `WorkflowExecutor.execute`: validate (a non-empty error list raises
`ValueError`, modelled as `none`), compute the layers, run them in order,
and aggregate `WorkflowResult` with `success = (failed_count == 0)`.
The second component pairs each executed step with its event trace. -/
def execute (dag : WorkflowDAG) (beh : String → StepBehavior)
    (defaultTimeout : ℚ) :
    Option (WorkflowResult × List (String × List StepEvent)) :=
  if dag.validate ≠ [] then none
  else
    let r := runLayers dag beh defaultTimeout dag.get_execution_layers ([], [])
    let completed := (r.1.filter (fun kv => kv.2.status == StepStatus.completed)).length
    let failed := (r.1.filter (fun kv => kv.2.status == StepStatus.failed)).length
    let skipped := (r.1.filter (fun kv => kv.2.status == StepStatus.skipped)).length
    some ({ success := failed == 0, steps := r.1, completedCount := completed,
            failedCount := failed, skippedCount := skipped }, r.2)

/-!
## Retry policy (claim C5)
-/

theorem runAttempts_retries_le (step : WorkflowStep) (beh : StepBehavior)
    (timeout : ℚ) :
    ∀ (fuel attempt retries : Nat) (err : Option String),
      attempt + fuel = step.maxRetries + 1 → retries ≤ step.maxRetries →
      (runAttempts step beh timeout fuel attempt retries err).1.retriesUsed ≤
        step.maxRetries := by
  intro fuel
  induction fuel with
  | zero =>
    intro attempt retries err _ hr
    simpa [runAttempts] using hr
  | succ fuel ih =>
    intro attempt retries err hsum hr
    have hatt : attempt ≤ step.maxRetries := by omega
    cases h : beh.attempts attempt with
    | ok => simp only [runAttempts, h]; exact hr
    | exn msg =>
      simp only [runAttempts, h]
      exact ih (attempt + 1) attempt _ (by omega) hatt
    | timedOut =>
      simp only [runAttempts, h]
      exact ih (attempt + 1) attempt _ (by omega) hatt

theorem runAttempts_attempt_count (step : WorkflowStep) (beh : StepBehavior)
    (timeout : ℚ) :
    ∀ (fuel attempt retries : Nat) (err : Option String),
      ((runAttempts step beh timeout fuel attempt retries err).2.countP
        StepEvent.isAttempt) ≤ fuel := by
  intro fuel
  induction fuel with
  | zero => intro attempt retries err; simp [runAttempts]
  | succ fuel ih =>
    intro attempt retries err
    cases h : beh.attempts attempt with
    | ok => simp [runAttempts, h, StepEvent.isAttempt]
    | exn msg =>
      simp only [runAttempts, h, List.countP_cons, List.countP_append]
      have hb : ((if attempt < step.maxRetries then
          [StepEvent.backoffEv attempt (backoffDelay step.retryBackoffBase
            (beh.jitterFrac attempt) attempt)]
        else []).countP StepEvent.isAttempt) = 0 := by
        split_ifs <;> simp [StepEvent.isAttempt]
      rw [hb]
      have := ih (attempt + 1) attempt (failureMessage timeout (.exn msg))
      simp [StepEvent.isAttempt]
      omega
    | timedOut =>
      simp only [runAttempts, h, List.countP_cons, List.countP_append]
      have hb : ((if attempt < step.maxRetries then
          [StepEvent.backoffEv attempt (backoffDelay step.retryBackoffBase
            (beh.jitterFrac attempt) attempt)]
        else []).countP StepEvent.isAttempt) = 0 := by
        split_ifs <;> simp [StepEvent.isAttempt]
      rw [hb]
      have := ih (attempt + 1) attempt (failureMessage timeout .timedOut)
      simp [StepEvent.isAttempt]
      omega

theorem runAttempts_backoff_mem (step : WorkflowStep) (beh : StepBehavior)
    (timeout : ℚ) :
    ∀ (fuel attempt retries : Nat) (err : Option String) (n : Nat) (d : ℚ),
      StepEvent.backoffEv n d ∈
        (runAttempts step beh timeout fuel attempt retries err).2 →
      n < step.maxRetries ∧
        d = backoffDelay step.retryBackoffBase (beh.jitterFrac n) n := by
  intro fuel
  induction fuel with
  | zero => intro attempt retries err n d hmem; simp [runAttempts] at hmem
  | succ fuel ih =>
    intro attempt retries err n d hmem
    cases h : beh.attempts attempt with
    | ok =>
      simp only [runAttempts, h] at hmem
      simp at hmem
    | exn msg =>
      simp only [runAttempts, h] at hmem
      rcases List.mem_cons.1 hmem with habs | hmem
      · exact absurd habs (by simp)
      rcases List.mem_append.1 hmem with hmem | hmem
      · split_ifs at hmem with hlt
        · simp at hmem
          exact ⟨hmem.1 ▸ hlt, by rw [hmem.1.symm] at hmem ⊢; exact hmem.2⟩
        · simp at hmem
      · exact ih (attempt + 1) attempt _ n d hmem
    | timedOut =>
      simp only [runAttempts, h] at hmem
      rcases List.mem_cons.1 hmem with habs | hmem
      · exact absurd habs (by simp)
      rcases List.mem_append.1 hmem with hmem | hmem
      · split_ifs at hmem with hlt
        · simp at hmem
          exact ⟨hmem.1 ▸ hlt, by rw [hmem.1.symm] at hmem ⊢; exact hmem.2⟩
        · simp at hmem
      · exact ih (attempt + 1) attempt _ n d hmem

theorem runAttempts_head (step : WorkflowStep) (beh : StepBehavior)
    (timeout : ℚ) (fuel attempt retries : Nat) (err : Option String) :
    (runAttempts step beh timeout (fuel + 1) attempt retries err).2.head? =
      some (.attemptEv attempt) := by
  cases h : beh.attempts attempt with
  | ok => simp [runAttempts, h]
  | exn msg => simp [runAttempts, h]
  | timedOut => simp [runAttempts, h]

/-- C5: the retry policy of `_execute_step`.  For every step and every
behaviour of its callable (with the jitter draw in range and a
non-negative backoff base): (1) `fn` is invoked at most
`max_retries + 1` times — at most `max_retries` additional attempts after
the first; (2) every backoff slept carries index `n < max_retries` (the
`n`-th retry, 0-indexed, follows it) and equals `base · 2^n + j` for some
jitter `j ∈ [0, base · 2^n · 0.5]`; (3) no backoff precedes the first
attempt — the trace is empty or starts with attempt 0; (4) the recorded
`retries_used` never exceeds `max_retries`. -/
theorem retry_policy_contract (step : WorkflowStep) (beh : StepBehavior)
    (defaultTimeout : ℚ) (hbase : 0 ≤ step.retryBackoffBase)
    (hjit : ∀ n, 0 ≤ beh.jitterFrac n ∧ beh.jitterFrac n ≤ 1) :
    ((executeStep step beh defaultTimeout).2.countP StepEvent.isAttempt ≤
      step.maxRetries + 1) ∧
    (∀ (n : Nat) (d : ℚ),
      StepEvent.backoffEv n d ∈ (executeStep step beh defaultTimeout).2 →
      n < step.maxRetries ∧
      ∃ j, 0 ≤ j ∧ j ≤ step.retryBackoffBase * 2 ^ n * (1 / 2) ∧
        d = step.retryBackoffBase * 2 ^ n + j) ∧
    ((executeStep step beh defaultTimeout).2 = [] ∨
      (executeStep step beh defaultTimeout).2.head? =
        some (StepEvent.attemptEv 0)) ∧
    ((executeStep step beh defaultTimeout).1.retriesUsed ≤ step.maxRetries) := by
  have hrun : ∀ timeout,
      ((runAttempts step beh timeout (step.maxRetries + 1) 0 0 none).2.countP
        StepEvent.isAttempt ≤ step.maxRetries + 1) ∧
      (∀ (n : Nat) (d : ℚ),
        StepEvent.backoffEv n d ∈
          (runAttempts step beh timeout (step.maxRetries + 1) 0 0 none).2 →
        n < step.maxRetries ∧
        ∃ j, 0 ≤ j ∧ j ≤ step.retryBackoffBase * 2 ^ n * (1 / 2) ∧
          d = step.retryBackoffBase * 2 ^ n + j) ∧
      ((runAttempts step beh timeout (step.maxRetries + 1) 0 0 none).2 = [] ∨
        (runAttempts step beh timeout (step.maxRetries + 1) 0 0 none).2.head? =
          some (StepEvent.attemptEv 0)) ∧
      ((runAttempts step beh timeout
          (step.maxRetries + 1) 0 0 none).1.retriesUsed ≤ step.maxRetries) := by
    intro timeout
    refine ⟨runAttempts_attempt_count step beh timeout _ 0 0 none, ?_, ?_, ?_⟩
    · intro n d hmem
      obtain ⟨hlt, hval⟩ := runAttempts_backoff_mem step beh timeout _ 0 0 none n d hmem
      have hB : (0 : ℚ) ≤ step.retryBackoffBase * 2 ^ n * (1 / 2) := by
        have h2 : (0 : ℚ) ≤ 2 ^ n := by positivity
        nlinarith [hbase, h2]
      refine ⟨hlt, beh.jitterFrac n * (step.retryBackoffBase * 2 ^ n * (1 / 2)),
        ?_, ?_, ?_⟩
      · exact mul_nonneg (hjit n).1 hB
      · calc beh.jitterFrac n * (step.retryBackoffBase * 2 ^ n * (1 / 2)) ≤
            1 * (step.retryBackoffBase * 2 ^ n * (1 / 2)) :=
              mul_le_mul_of_nonneg_right (hjit n).2 hB
          _ = step.retryBackoffBase * 2 ^ n * (1 / 2) := one_mul _
      · rw [hval, backoffDelay]
    · exact Or.inr (runAttempts_head step beh timeout _ 0 0 none)
    · exact runAttempts_retries_le step beh timeout _ 0 0 none (by omega)
        (Nat.zero_le _)
  by_cases hc : step.hasCondition = true
  · cases hcond : beh.cond with
    | condTrue =>
      have h := hrun (effectiveTimeout step defaultTimeout)
      simpa [executeStep, hc, hcond] using h
    | condFalse => simp [executeStep, hc, hcond]
    | raises msg => simp [executeStep, hc, hcond]
  · have h := hrun (effectiveTimeout step defaultTimeout)
    simpa [executeStep, hc] using h

/-- The flaky step of the C5 witness: fails on attempts 0 and 1, succeeds
on attempt 2. -/
def flakyBehavior : StepBehavior :=
  { attempts := fun k => if k < 2 then AttemptOutcome.exn "boom" else AttemptOutcome.ok,
    jitterFrac := fun _ => 1 / 2 }

/-- The step of the C5 witness: 3 retries, backoff base 10 s. -/
def flakyStep : WorkflowStep :=
  { id := "extract", maxRetries := 3, retryBackoffBase := 10 }

/-- Witness for `retry_policy_contract` on `flakyStep` / `flakyBehavior`:
at most 4 invocations, every backoff is `10 · 2^n` plus in-range jitter,
the trace starts with attempt 0, and `retries_used ≤ 3`. -/
theorem retry_policy_contract_witness :
    ((executeStep flakyStep flakyBehavior 300).2.countP StepEvent.isAttempt ≤
      flakyStep.maxRetries + 1) ∧
    (∀ (n : Nat) (d : ℚ),
      StepEvent.backoffEv n d ∈ (executeStep flakyStep flakyBehavior 300).2 →
      n < flakyStep.maxRetries ∧
      ∃ j, 0 ≤ j ∧ j ≤ flakyStep.retryBackoffBase * 2 ^ n * (1 / 2) ∧
        d = flakyStep.retryBackoffBase * 2 ^ n + j) ∧
    ((executeStep flakyStep flakyBehavior 300).2 = [] ∨
      (executeStep flakyStep flakyBehavior 300).2.head? =
        some (StepEvent.attemptEv 0)) ∧
    ((executeStep flakyStep flakyBehavior 300).1.retriesUsed ≤
      flakyStep.maxRetries) :=
  retry_policy_contract flakyStep flakyBehavior 300 (by norm_num [flakyStep])
    (fun n => by constructor <;> norm_num [flakyBehavior])

/-!
## Correctness of the Kahn passes (towards claims C10 and C4)

Both `validate`'s FIFO pass and `get_execution_layers` are instances of
Kahn's algorithm over the same in-degree table.  The development below
relates the mutable counter tables to a declarative degree function
`degOf` and characterises the visited sets.
-/

namespace WorkflowDAG

/-- The declarative in-degree of step `s` once the nodes of `P` have been
processed: dependency occurrences that exist in the DAG and are not yet
processed. -/
def degOf (dag : WorkflowDAG) (P : List String) (s : WorkflowStep) : Nat :=
  (s.dependsOn.filter (fun d => (dag.stepIds).contains d && !(P.contains d))).length

/-- The counter table corresponding to processed set `P`. -/
def degTable (dag : WorkflowDAG) (P : List String) : List (String × Nat) :=
  dag.steps.map (fun s => (s.id, dag.degOf P s))

theorem degTable_nil (dag : WorkflowDAG) : dag.degTable [] = dag.inDegreeInit := by
  simp [degTable, inDegreeInit, degOf]

theorem degTable_keys (dag : WorkflowDAG) (P : List String) :
    (dag.degTable P).map Prod.fst = dag.stepIds := by
  simp [degTable, stepIds]

/-- A step is "removable" when all of its in-DAG dependencies are
(hereditarily) removable: the nodes Kahn's algorithm can eliminate. -/
inductive Removable (dag : WorkflowDAG) : String → Prop
  | mk (s : WorkflowStep) (hs : s ∈ dag.steps)
      (hdeps : ∀ d ∈ s.dependsOn, d ∈ dag.stepIds → Removable dag d) :
      Removable dag s.id

theorem processChildren_fst (cs : List String) : ∀ degs : List (String × Nat),
    (processChildren degs cs).1 =
      degs.map (fun kv => (kv.1, kv.2 - cs.count kv.1)) := by
  induction cs with
  | nil =>
    intro degs
    simp [processChildren]
  | cons c cs ih =>
    intro degs
    simp only [processChildren, decrementChild]
    rw [ih, List.map_map]
    apply List.map_congr_left
    intro kv _
    by_cases h : (kv.1 == c) = true
    · simp only [Function.comp_apply, h, if_true, List.count_cons, Prod.mk.injEq,
        true_and]
      rw [beq_iff_eq] at h
      simp [h]
      omega
    · rw [Bool.not_eq_true] at h
      simp only [Function.comp_apply, h, if_false, List.count_cons, Prod.mk.injEq,
        true_and]
      simp [h]
      rw [beq_eq_false_iff_ne] at h
      rw [if_neg (fun hh => h hh.symm)]
      omega

theorem processChildren_append (xs ys : List String) : ∀ degs : List (String × Nat),
    processChildren degs (xs ++ ys) =
      ((processChildren (processChildren degs xs).1 ys).1,
       (processChildren degs xs).2 ++ (processChildren (processChildren degs xs).1 ys).2) := by
  induction xs with
  | nil => intro degs; simp [processChildren]
  | cons x xs ih =>
    intro degs
    rw [List.cons_append]
    simp only [processChildren, List.append_eq]
    rw [ih]
    by_cases h : (decrementChild degs x).2 <;> simp [h]

theorem find?_of_nodup_keys {degs : List (String × Nat)}
    (hnd : (degs.map Prod.fst).Nodup) {kv : String × Nat} (hkv : kv ∈ degs) :
    degs.find? (fun e => e.1 == kv.1) = some kv := by
  induction degs with
  | nil => exact absurd hkv (List.not_mem_nil kv)
  | cons e degs ih =>
    rcases List.mem_cons.1 hkv with rfl | hkv'
    · simp [List.find?_cons]
    · have hne : (e.1 == kv.1) = false := by
        rw [beq_eq_false_iff_ne]
        intro heq
        have : kv.1 ∈ degs.map Prod.fst := List.mem_map_of_mem Prod.fst hkv'
        rw [← heq] at this
        exact (List.nodup_cons.1 hnd).1 this
      rw [List.find?_cons, hne]
      exact ih (List.nodup_cons.1 hnd).2 hkv'

theorem mem_keys_unique {degs : List (String × Nat)}
    (hnd : (degs.map Prod.fst).Nodup) {kv kv' : String × Nat}
    (h1 : kv ∈ degs) (h2 : kv' ∈ degs) (heq : kv.1 = kv'.1) : kv = kv' :=
  List.inj_on_of_nodup_map hnd h1 h2 heq

theorem decrementChild_keys (degs : List (String × Nat)) (d : String) :
    ((decrementChild degs d).1.map Prod.fst) = degs.map Prod.fst := by
  simp only [decrementChild, List.map_map]
  apply List.map_congr_left
  intro kv _
  simp only [Function.comp_apply]
  split <;> rfl

theorem decrementChild_hit_iff {degs : List (String × Nat)} {d : String}
    (hnd : (degs.map Prod.fst).Nodup) :
    (decrementChild degs d).2 = true ↔ ∃ kv ∈ degs, kv.1 = d ∧ kv.2 = 1 := by
  simp only [decrementChild]
  constructor
  · intro h
    rw [beq_iff_eq] at h
    cases hf : degs.find? (fun kv => kv.1 == d) with
    | none => rw [hf] at h; simp at h
    | some kv =>
      rw [hf] at h
      simp only [Option.map_some', Option.some.injEq] at h
      have h1 := List.find?_some hf
      exact ⟨kv, List.mem_of_find?_eq_some hf, beq_iff_eq.1 h1, h⟩
  · rintro ⟨kv, hkv, hd, h1⟩
    have hfind := find?_of_nodup_keys hnd hkv
    rw [hd] at hfind
    rw [beq_iff_eq, hfind]
    simp [h1]

theorem processChildren_zeros_mem (cs : List String) :
    ∀ (degs : List (String × Nat)), (degs.map Prod.fst).Nodup →
    ∀ c, (c ∈ (processChildren degs cs).2 ↔
      ∃ kv ∈ degs, kv.1 = c ∧ 1 ≤ kv.2 ∧ kv.2 ≤ cs.count c) := by
  induction cs with
  | nil =>
    intro degs _ c
    constructor
    · intro h; exact absurd h (List.not_mem_nil c)
    · rintro ⟨kv, _, _, h1, h2⟩
      rw [List.count_nil] at h2
      omega
  | cons d cs ih =>
    intro degs hnd c
    have hnd' : (((decrementChild degs d).1).map Prod.fst).Nodup := by
      rw [decrementChild_keys]; exact hnd
    have IH := ih (decrementChild degs d).1 hnd' c
    have hcnt : (d :: cs).count c = cs.count c + (if c = d then 1 else 0) := by
      rw [List.count_cons]
      congr 1
      by_cases h : c = d
      · simp [h]
      · simp [h, Ne.symm h]
    by_cases hcd : c = d
    · subst hcd
      constructor
      · intro hmem
        simp only [processChildren] at hmem
        by_cases hhit : (decrementChild degs c).2 = true
        · rw [if_pos hhit] at hmem
          rcases List.mem_cons.1 hmem with _ | hmem'
          · obtain ⟨kv, hkv, hk1, hk2⟩ := (decrementChild_hit_iff hnd).1 hhit
            exact ⟨kv, hkv, hk1, by omega, by rw [hcnt]; simp; omega⟩
          · obtain ⟨kv', hkv', hk1, hge, hle⟩ := IH.1 hmem'
            obtain ⟨kv, hkv, rfl⟩ := List.mem_map.1 hkv'
            by_cases hkd : (kv.1 == c) = true
            · rw [if_pos hkd] at hk1 hge hle
              simp only at hk1 hge hle
              refine ⟨kv, hkv, beq_iff_eq.1 hkd, by omega, ?_⟩
              rw [hcnt]; simp; omega
            · rw [if_neg hkd] at hk1 hge hle
              rw [hk1] at hkd
              simp at hkd
        · rw [if_neg hhit] at hmem
          obtain ⟨kv', hkv', hk1, hge, hle⟩ := IH.1 hmem
          obtain ⟨kv, hkv, rfl⟩ := List.mem_map.1 hkv'
          by_cases hkd : (kv.1 == c) = true
          · rw [if_pos hkd] at hk1 hge hle
            simp only at hk1 hge hle
            refine ⟨kv, hkv, beq_iff_eq.1 hkd, by omega, ?_⟩
            rw [hcnt]; simp; omega
          · rw [if_neg hkd] at hk1 hge hle
            rw [hk1] at hkd
            simp at hkd
      · rintro ⟨kv, hkv, hk1, hge, hle⟩
        have hle' : kv.2 ≤ cs.count c + 1 := by
          rw [hcnt] at hle
          simpa using hle
        simp only [processChildren]
        by_cases hv1 : kv.2 = 1
        · have hhit : (decrementChild degs c).2 = true :=
            (decrementChild_hit_iff hnd).2 ⟨kv, hkv, hk1, hv1⟩
          rw [if_pos hhit]
          exact List.mem_cons_self _ _
        · have hmem' : c ∈ (processChildren (decrementChild degs c).1 cs).2 := by
            apply IH.2
            refine ⟨(kv.1, kv.2 - 1), ?_, hk1, by omega, by omega⟩
            exact List.mem_map.2 ⟨kv, hkv, by simp [hk1]⟩
          by_cases hhit : (decrementChild degs c).2 = true
          · rw [if_pos hhit]; exact List.mem_cons_of_mem _ hmem'
          · rw [if_neg hhit]; exact hmem'
    · have hcnt' : (d :: cs).count c = cs.count c := by
        rw [hcnt, if_neg hcd, Nat.add_zero]
      simp only [processChildren]
      have hzmem : ∀ z', (c ∈ (if (decrementChild degs d).2 = true
          then d :: z' else z') ↔ c ∈ z') := by
        intro z'
        by_cases hhit : (decrementChild degs d).2 = true
        · rw [if_pos hhit]
          constructor
          · intro h
            rcases List.mem_cons.1 h with h | h
            · exact absurd h hcd
            · exact h
          · exact List.mem_cons_of_mem _
        · rw [if_neg hhit]
      rw [hzmem, IH, hcnt']
      constructor
      · rintro ⟨kv', hkv', hk1, hge, hle⟩
        obtain ⟨kv, hkv, rfl⟩ := List.mem_map.1 hkv'
        by_cases hkd : (kv.1 == d) = true
        · have hdd : kv.1 = d := beq_iff_eq.1 hkd
          rw [if_pos hkd] at hk1
          simp only at hk1
          exact absurd (hk1 ▸ hdd) hcd
        · rw [if_neg hkd] at hk1 hge hle
          exact ⟨kv, hkv, hk1, hge, hle⟩
      · rintro ⟨kv, hkv, hk1, hge, hle⟩
        refine ⟨kv, ?_, hk1, hge, hle⟩
        exact List.mem_map.2 ⟨kv, hkv, by simp [hk1, hcd]⟩

theorem processChildren_zeros_nodup (cs : List String) :
    ∀ (degs : List (String × Nat)), (degs.map Prod.fst).Nodup →
    (processChildren degs cs).2.Nodup := by
  induction cs with
  | nil => intro degs _; exact List.nodup_nil
  | cons d cs ih =>
    intro degs hnd
    have hnd' : (((decrementChild degs d).1).map Prod.fst).Nodup := by
      rw [decrementChild_keys]; exact hnd
    simp only [processChildren]
    by_cases hhit : (decrementChild degs d).2 = true
    · rw [if_pos hhit]
      refine List.nodup_cons.2 ⟨?_, ih _ hnd'⟩
      intro hdz
      obtain ⟨kv', hkv', hk1, hge, _⟩ :=
        (processChildren_zeros_mem cs _ hnd' d).1 hdz
      obtain ⟨kv, hkv, rfl⟩ := List.mem_map.1 hkv'
      obtain ⟨kv0, hkv0, h0d, h01⟩ := (decrementChild_hit_iff hnd).1 hhit
      have hkd : kv.1 = d := by
        by_cases h : (kv.1 == d) = true
        · exact beq_iff_eq.1 h
        · rw [if_neg h] at hk1; exact hk1
      have hkk0 : kv = kv0 := mem_keys_unique hnd hkv hkv0 (hkd.trans h0d.symm)
      rw [if_pos (by rw [beq_iff_eq]; exact hkd)] at hge
      simp only at hge
      rw [hkk0, h01] at hge
      omega
    · rw [if_neg hhit]; exact ih _ hnd'

theorem adjacency_count_aux (q : String) (s : WorkflowStep) :
    ∀ (l : List WorkflowStep), (l.map WorkflowStep.id).Nodup → s ∈ l →
    ((l.flatMap (fun c =>
      (c.dependsOn.filter (fun d => d == q)).map (fun _ => c.id))).count s.id) =
      s.dependsOn.count q := by
  intro l
  induction l with
  | nil => intro _ hs; exact absurd hs (List.not_mem_nil s)
  | cons c l ih =>
    intro hnd hs
    rw [List.flatMap_cons, List.count_append]
    rcases List.mem_cons.1 hs with rfl | hs'
    · have hrest : ((l.flatMap (fun c =>
          (c.dependsOn.filter (fun d => d == q)).map (fun _ => c.id))).count s.id) = 0 := by
        rw [List.count_eq_zero]
        intro hmem
        obtain ⟨c', hc', hmem'⟩ := List.mem_flatMap.1 hmem
        obtain ⟨_, _, hid⟩ := List.mem_map.1 hmem'
        have : s.id ∈ l.map WorkflowStep.id := hid ▸ List.mem_map_of_mem _ hc'
        exact (List.nodup_cons.1 hnd).1 this
      rw [hrest, Nat.add_zero]
      have hall : (s.dependsOn.filter (fun d => d == q)).map
          (fun _ => s.id) =
          List.replicate (s.dependsOn.filter (fun d => d == q)).length s.id :=
        List.map_const' _ _
      rw [hall, List.count_replicate_self, List.count]
      rw [List.countP_eq_length_filter]
    · have hne : c.id ≠ s.id := by
        intro h
        have : s.id ∈ l.map WorkflowStep.id := List.mem_map_of_mem _ hs'
        exact (List.nodup_cons.1 hnd).1 (h ▸ this)
      have hzero : ((c.dependsOn.filter (fun d => d == q)).map
          (fun _ => c.id)).count s.id = 0 := by
        rw [List.count_eq_zero]
        intro hmem
        obtain ⟨_, _, hid⟩ := List.mem_map.1 hmem
        exact hne hid
      rw [hzero, Nat.zero_add]
      exact ih (List.nodup_cons.1 hnd).2 hs'

/-- With distinct step ids, the number of edges `q → s.id` in the
adjacency list equals the multiplicity of `q` among `s`'s dependencies. -/
theorem adjacency_count (dag : WorkflowDAG) (hnd : dag.stepIds.Nodup)
    {s : WorkflowStep} (hs : s ∈ dag.steps) (q : String) :
    (dag.adjacency q).count s.id = s.dependsOn.count q := by
  unfold adjacency
  exact adjacency_count_aux q s dag.steps hnd hs

/-- Processing one more node `q` lowers each declarative degree by the
multiplicity of `q` among the step's dependencies. -/
theorem degOf_append_single (dag : WorkflowDAG) {P : List String} {q : String}
    (hq : q ∈ dag.stepIds) (hqP : q ∉ P) (s : WorkflowStep) :
    dag.degOf P s = dag.degOf (P ++ [q]) s + s.dependsOn.count q := by
  unfold degOf
  generalize s.dependsOn = l
  induction l with
  | nil => simp
  | cons d l ih =>
    by_cases hd : d = q
    · have hc1 : ((dag.stepIds).contains d && !(P.contains d)) = true := by
        rw [hd]; simp [hq, hqP]
      have hc2 : ((dag.stepIds).contains d && !((P ++ [q]).contains d)) = false := by
        rw [hd]; simp
      have hdq : (d == q) = true := beq_iff_eq.2 hd
      rw [List.filter_cons, List.filter_cons, hc1, hc2, List.count_cons, hdq]
      rw [if_pos rfl, if_neg Bool.false_ne_true, if_pos rfl, List.length_cons]
      omega
    · have hc : ((P ++ [q]).contains d) = P.contains d := by
        simp [hd]
      rw [List.filter_cons, List.filter_cons, hc, List.count_cons]
      have hdq : (d == q) = false := beq_eq_false_iff_ne.2 hd
      rw [hdq]
      by_cases hC : ((dag.stepIds).contains d && !(P.contains d)) = true
      · rw [hC]
        rw [if_pos rfl, if_pos rfl, if_neg Bool.false_ne_true, List.length_cons,
          List.length_cons]
        omega
      · rw [Bool.not_eq_true] at hC
        rw [hC]
        rw [if_neg Bool.false_ne_true, if_neg Bool.false_ne_true,
          if_neg Bool.false_ne_true]
        omega

/-- Degrees only go down as the processed set grows. -/
theorem degOf_mono (dag : WorkflowDAG) {P Q : List String}
    (hsub : ∀ x ∈ P, x ∈ Q) (s : WorkflowStep) :
    dag.degOf Q s ≤ dag.degOf P s := by
  unfold degOf
  rw [← List.countP_eq_length_filter, ← List.countP_eq_length_filter]
  apply List.countP_mono_left
  intro d _ h
  simp only [Bool.and_eq_true, Bool.not_eq_true'] at h ⊢
  refine ⟨h.1, ?_⟩
  cases hPd : P.contains d
  · rfl
  · exfalso
    have hmem : d ∈ P := by simpa using hPd
    have hQ : d ∈ Q := hsub d hmem
    have := h.2
    simp [hQ] at this

/-- A step's degree vanishes exactly when all its in-DAG dependencies are
processed. -/
theorem degOf_eq_zero_iff (dag : WorkflowDAG) (P : List String) (s : WorkflowStep) :
    dag.degOf P s = 0 ↔ ∀ d ∈ s.dependsOn, d ∈ dag.stepIds → d ∈ P := by
  unfold degOf
  rw [List.length_eq_zero, List.filter_eq_nil_iff]
  constructor
  · intro h d hd hid
    have hday := h d hd
    by_contra hdP
    apply hday
    simp [hid, hdP]
  · intro h d hd
    simp only [Bool.and_eq_true, Bool.not_eq_true']
    rintro ⟨h1, h2⟩
    have hid : d ∈ dag.stepIds := by simpa using h1
    have hdp : d ∈ P := h d hd hid
    simp [hdp] at h2

/-- Popping `q` turns the counter table for processed set `P` into the
table for `P ++ [q]`, and the freshly collected zeros are exactly the
steps whose degree just became zero. -/
theorem processChildren_degTable (dag : WorkflowDAG) (hnd : dag.stepIds.Nodup)
    {P : List String} {q : String} (hq : q ∈ dag.stepIds) (hqP : q ∉ P) :
    (processChildren (dag.degTable P) (dag.adjacency q)).1 = dag.degTable (P ++ [q]) ∧
    ∀ c, (c ∈ (processChildren (dag.degTable P) (dag.adjacency q)).2 ↔
      ∃ s ∈ dag.steps, s.id = c ∧ 1 ≤ dag.degOf P s ∧ dag.degOf (P ++ [q]) s = 0) := by
  constructor
  · rw [processChildren_fst]
    unfold degTable
    rw [List.map_map]
    apply List.map_congr_left
    intro s hs
    simp only [Function.comp_apply]
    rw [adjacency_count dag hnd hs q]
    have hupd := degOf_append_single dag hq hqP s
    have : dag.degOf P s - s.dependsOn.count q = dag.degOf (P ++ [q]) s := by omega
    rw [this]
  · intro c
    have hkeys : ((dag.degTable P).map Prod.fst).Nodup := by
      rw [degTable_keys]; exact hnd
    rw [processChildren_zeros_mem _ _ hkeys c]
    constructor
    · rintro ⟨kv, hkv, hk1, hge, hle⟩
      obtain ⟨s, hs, hkv_eq⟩ := List.mem_map.1 hkv
      have hid : s.id = c := by rw [← hk1, ← hkv_eq]
      have hval : kv.2 = dag.degOf P s := by rw [← hkv_eq]
      rw [hval] at hge hle
      rw [← hid] at hle
      rw [adjacency_count dag hnd hs q] at hle
      have hupd := degOf_append_single dag hq hqP s
      exact ⟨s, hs, hid, hge, by omega⟩
    · rintro ⟨s, hs, hid, hge, hzero⟩
      have hcnt : (dag.adjacency q).count c = s.dependsOn.count q := by
        rw [← hid]; exact adjacency_count dag hnd hs q
      refine ⟨(s.id, dag.degOf P s), List.mem_map.2 ⟨s, hs, rfl⟩, hid, hge, ?_⟩
      simp only
      rw [hcnt]
      have hupd := degOf_append_single dag hq hqP s
      omega

/-- With distinct step ids, a step is determined by its id. -/
theorem step_id_unique {dag : WorkflowDAG} (hnd : dag.stepIds.Nodup)
    {s t : WorkflowStep} (hs : s ∈ dag.steps) (ht : t ∈ dag.steps)
    (h : s.id = t.id) : s = t := by
  unfold stepIds at hnd
  exact List.inj_on_of_nodup_map hnd hs ht h

/-- The loop invariant of both Kahn passes: `P` is the processed prefix,
`R` the pending pool (FIFO queue, or current layer plus accumulated next
layer). -/
structure KahnInv (dag : WorkflowDAG) (P R : List String) : Prop where
  nodup : (P ++ R).Nodup
  subids : ∀ x ∈ P ++ R, x ∈ dag.stepIds
  sched : ∀ s ∈ dag.steps, dag.degOf P s = 0 → s.id ∈ P ++ R
  pool : ∀ x ∈ R, ∃ s ∈ dag.steps, s.id = x ∧ dag.degOf P s = 0
  procz : ∀ s ∈ dag.steps, s.id ∈ P → dag.degOf P s = 0
  rem : ∀ x ∈ P, Removable dag x

/-- One Kahn step: pop a pool node `q`, decrement its children, append
the new zeros to the pool. The invariant is preserved whichever end of
the pool `q` is taken from and wherever the zeros are spliced in, as long
as the rest of the pool is kept; this statement (tail kept, zeros
appended) covers both the FIFO queue and the layered traversal. -/
theorem kahnInv_step (dag : WorkflowDAG) (hnd : dag.stepIds.Nodup)
    {P R' : List String} {q : String} (inv : KahnInv dag P (q :: R')) :
    KahnInv dag (P ++ [q])
      (R' ++ (processChildren (dag.degTable P) (dag.adjacency q)).2) := by
  have hqmem : q ∈ P ++ q :: R' :=
    List.mem_append_right _ (List.mem_cons_self _ _)
  have hq : q ∈ dag.stepIds := inv.subids q hqmem
  have hnds : (P.Nodup ∧ (q :: R').Nodup) ∧ List.Disjoint P (q :: R') :=
    ⟨⟨(List.nodup_append.1 inv.nodup).1, (List.nodup_append.1 inv.nodup).2.1⟩,
      (List.nodup_append.1 inv.nodup).2.2⟩
  have hqP : q ∉ P := fun h => hnds.2 h (List.mem_cons_self _ _)
  obtain ⟨hupd, hchar⟩ := processChildren_degTable dag hnd hq hqP
  have hsq := inv.pool q (List.mem_cons_self _ _)
  obtain ⟨sq, hsqs, hsqid, hsqz⟩ := hsq
  have hrearr : ∀ x, x ∈ (P ++ [q]) ++
      (R' ++ (processChildren (dag.degTable P) (dag.adjacency q)).2) ↔
      x ∈ (P ++ q :: R') ++ (processChildren (dag.degTable P) (dag.adjacency q)).2 := by
    intro x
    simp only [List.mem_append, List.mem_cons, List.mem_singleton]
    tauto
  have hznotold : ∀ c ∈ (processChildren (dag.degTable P) (dag.adjacency q)).2,
      c ∉ P ++ q :: R' := by
    intro c hc hcold
    obtain ⟨s, hs, hsid, hge, _⟩ := (hchar c).1 hc
    rcases List.mem_append.1 hcold with hcP | hcq
    · have := inv.procz s hs (hsid ▸ hcP)
      omega
    · rcases List.mem_cons.1 hcq with rfl | hcR
      · have heq : s = sq := step_id_unique hnd hs hsqs (by rw [hsid, hsqid])
        rw [heq] at hge
        omega
      · obtain ⟨t, hts, htid, htz⟩ := inv.pool c (List.mem_cons_of_mem _ hcR)
        have heq : s = t := step_id_unique hnd hs hts (by rw [hsid, htid])
        rw [heq] at hge
        omega
  refine ⟨?_, ?_, ?_, ?_, ?_, ?_⟩
  · have hzn : (processChildren (dag.degTable P) (dag.adjacency q)).2.Nodup := by
      apply processChildren_zeros_nodup
      rw [degTable_keys]
      exact hnd
    have : ((P ++ q :: R') ++
        (processChildren (dag.degTable P) (dag.adjacency q)).2).Nodup := by
      rw [List.nodup_append]
      exact ⟨inv.nodup, hzn, fun a ha hb => hznotold a hb ha⟩
    have heq : (P ++ [q]) ++
        (R' ++ (processChildren (dag.degTable P) (dag.adjacency q)).2) =
        (P ++ q :: R') ++ (processChildren (dag.degTable P) (dag.adjacency q)).2 := by
      simp [List.append_assoc]
    rw [heq]
    exact this
  · intro x hx
    rcases List.mem_append.1 ((hrearr x).1 hx) with hold | hz
    · exact inv.subids x hold
    · obtain ⟨s, hs, hsid, _, _⟩ := (hchar x).1 hz
      rw [← hsid]
      exact List.mem_map_of_mem _ hs
  · intro s hs hz
    by_cases h0 : dag.degOf P s = 0
    · have := inv.sched s hs h0
      exact (hrearr s.id).2 (List.mem_append_left _ this)
    · have hge : 1 ≤ dag.degOf P s := by omega
      have : s.id ∈ (processChildren (dag.degTable P) (dag.adjacency q)).2 :=
        (hchar s.id).2 ⟨s, hs, rfl, hge, hz⟩
      exact (hrearr s.id).2 (List.mem_append_right _ this)
  · intro x hx
    rcases List.mem_append.1 hx with hxR | hxz
    · obtain ⟨s, hs, hsid, hsz⟩ := inv.pool x (List.mem_cons_of_mem _ hxR)
      refine ⟨s, hs, hsid, ?_⟩
      have := dag.degOf_mono (P := P) (Q := P ++ [q])
        (fun y hy => List.mem_append_left _ hy) s
      omega
    · obtain ⟨s, hs, hsid, _, hz⟩ := (hchar x).1 hxz
      exact ⟨s, hs, hsid, hz⟩
  · intro s hs hsP
    rcases List.mem_append.1 hsP with hP | hQ
    · have := inv.procz s hs hP
      have hmono := dag.degOf_mono (P := P) (Q := P ++ [q])
        (fun y hy => List.mem_append_left _ hy) s
      omega
    · have hid : s.id = q := List.mem_singleton.1 hQ
      have heq : s = sq := step_id_unique hnd hs hsqs (by rw [hid, hsqid])
      have hmono := dag.degOf_mono (P := P) (Q := P ++ [q])
        (fun y hy => List.mem_append_left _ hy) s
      rw [heq]
      rw [heq] at hmono
      omega
  · intro x hx
    rcases List.mem_append.1 hx with hP | hQ
    · exact inv.rem x hP
    · have hid : x = q := List.mem_singleton.1 hQ
      subst hid
      rw [← hsqid]
      refine Removable.mk sq hsqs ?_
      intro d hd hdid
      have hdP : d ∈ P := ((dag.degOf_eq_zero_iff P sq).1 hsqz) d hd hdid
      exact inv.rem d hdP

/-- Any state satisfying the invariant has visited-plus-pending at most
the number of steps. -/
theorem kahnInv_length_le {dag : WorkflowDAG} {P R : List String}
    (inv : KahnInv dag P R) : (P ++ R).length ≤ dag.steps.length := by
  have hsp : List.Subperm (P ++ R) dag.stepIds :=
    List.subperm_of_subset inv.nodup (fun x hx => inv.subids x hx)
  have := hsp.length_le
  simpa [stepIds] using this

/-- The FIFO Kahn loop run to completion from any invariant state: it
empties the queue and returns the processed prefix extended by a suffix
that still satisfies the invariant (with nothing pending). -/
theorem kahnRun_spec (dag : WorkflowDAG) (hnd : dag.stepIds.Nodup) :
    ∀ (fuel : Nat) (V R : List String), KahnInv dag V.reverse R →
    dag.steps.length + 1 ≤ fuel + V.length →
    ∃ S, kahnRun dag.adjacency fuel R (dag.degTable V.reverse) V =
        V.reverse ++ S ∧ KahnInv dag (V.reverse ++ S) [] := by
  intro fuel
  induction fuel with
  | zero =>
    intro V R inv hfuel
    exfalso
    have hlen := kahnInv_length_le inv
    rw [List.length_append, List.length_reverse] at hlen
    omega
  | succ fuel ih =>
    intro V R inv hfuel
    cases R with
    | nil =>
      refine ⟨[], by simp [kahnRun], by simpa using inv⟩
    | cons q R' =>
      have hq : q ∈ dag.stepIds :=
        inv.subids q (List.mem_append_right _ (List.mem_cons_self _ _))
      have hqP : q ∉ V.reverse := fun h =>
        (List.nodup_append.1 inv.nodup).2.2 h (List.mem_cons_self _ _)
      have hupd := (processChildren_degTable dag hnd hq hqP).1
      have hstep := kahnInv_step dag hnd inv
      have hrev : (q :: V).reverse = V.reverse ++ [q] := by simp
      obtain ⟨S, hS, hinvS⟩ := ih (q :: V)
        (R' ++ (processChildren (dag.degTable V.reverse) (dag.adjacency q)).2)
        (by rw [hrev]; exact hstep)
        (by simp only [List.length_cons]; omega)
      have hunfold : kahnRun dag.adjacency (fuel + 1) (q :: R')
          (dag.degTable V.reverse) V =
          kahnRun dag.adjacency fuel
            (R' ++ (processChildren (dag.degTable V.reverse) (dag.adjacency q)).2)
            (processChildren (dag.degTable V.reverse) (dag.adjacency q)).1
            (q :: V) := rfl
      rw [hrev] at hS hinvS
      refine ⟨q :: S, ?_, ?_⟩
      · rw [hunfold, hupd, hS]
        simp
      · have heq : (V.reverse ++ [q]) ++ S = V.reverse ++ q :: S := by simp
        rw [← heq]
        exact hinvS

/-- The initial pool (steps of in-degree zero) satisfies the invariant
with an empty processed prefix. -/
theorem kahnInit_inv (dag : WorkflowDAG) (hnd : dag.stepIds.Nodup) :
    KahnInv dag []
      ((dag.inDegreeInit.filter (fun kv => kv.2 == 0)).map Prod.fst) := by
  rw [← degTable_nil]
  have hkeys : ((dag.degTable []).map Prod.fst).Nodup := by
    rw [degTable_keys]; exact hnd
  refine ⟨?_, ?_, ?_, ?_, ?_, ?_⟩
  · simp only [List.nil_append]
    exact hkeys.sublist ((List.filter_sublist _).map Prod.fst)
  · intro x hx
    simp only [List.nil_append] at hx
    obtain ⟨kv, hkv, rfl⟩ := List.mem_map.1 hx
    have : kv ∈ dag.degTable [] := (List.mem_filter.1 hkv).1
    have : kv.1 ∈ (dag.degTable []).map Prod.fst := List.mem_map_of_mem _ this
    rwa [degTable_keys] at this
  · intro s hs h0
    simp only [List.nil_append]
    refine List.mem_map.2 ⟨(s.id, dag.degOf [] s), ?_, rfl⟩
    refine List.mem_filter.2 ⟨List.mem_map.2 ⟨s, hs, rfl⟩, ?_⟩
    simp [h0]
  · intro x hx
    obtain ⟨kv, hkv, rfl⟩ := List.mem_map.1 hx
    obtain ⟨hkv1, hkv2⟩ := List.mem_filter.1 hkv
    obtain ⟨s, hs, hseq⟩ := List.mem_map.1 hkv1
    refine ⟨s, hs, ?_, ?_⟩
    · rw [← hseq]
    · have : kv.2 = dag.degOf [] s := by rw [← hseq]
      rw [beq_iff_eq] at hkv2
      omega
  · intro s _ hsP
    exact absurd hsP (List.not_mem_nil _)
  · intro x hx
    exact absurd hx (List.not_mem_nil _)

/-- The nodes visited by `validate`'s Kahn pass satisfy the final
invariant. -/
theorem kahnVisited_inv (dag : WorkflowDAG) (hnd : dag.stepIds.Nodup) :
    KahnInv dag dag.kahnVisited [] := by
  have hinit := kahnInit_inv dag hnd
  obtain ⟨S, hS, hinv⟩ := kahnRun_spec dag hnd (dag.steps.length + 1) []
    ((dag.inDegreeInit.filter (fun kv => kv.2 == 0)).map Prod.fst)
    (by simpa using hinit) (by simp)
  have hS' : kahnRun dag.adjacency (dag.steps.length + 1)
      ((dag.inDegreeInit.filter (fun kv => kv.2 == 0)).map Prod.fst)
      (dag.degTable []) [] = S := by simpa using hS
  rw [degTable_nil] at hS'
  have hkv : dag.kahnVisited = S := hS'
  rw [hkv]
  simpa using hinv

/-- At a final state (nothing pending) every removable node has been
visited. -/
theorem removable_mem_of_final {dag : WorkflowDAG} {S : List String}
    (inv : KahnInv dag S []) : ∀ x, Removable dag x → x ∈ S := by
  intro x hx
  induction hx with
  | mk s hs _ ih =>
    have h0 : dag.degOf S s = 0 :=
      (degOf_eq_zero_iff dag S s).2 (fun d hd hdid => ih d hd hdid)
    have := inv.sched s hs h0
    simpa using this

/-- When `validate` reports no errors, every step id is removable. -/
theorem validate_ok_all_removable (dag : WorkflowDAG)
    (hnd : dag.stepIds.Nodup) (hv : dag.validate = []) :
    ∀ x ∈ dag.stepIds, Removable dag x := by
  have hlen : dag.kahnVisited.length = dag.steps.length := by
    by_contra hne
    unfold validate at hv
    by_cases h1 : dag.steps.isEmpty
    · rw [if_pos h1] at hv
      simp at hv
    · rw [if_neg h1] at hv
      have hv' : (if (dag.steps.flatMap (fun s =>
            (s.dependsOn.filter (fun d => !(dag.stepIds).contains d)).map (fun d =>
              "Step '" ++ s.id ++ "' depends on '" ++ d ++ "' which does not exist"))) ≠ []
          then (dag.steps.flatMap (fun s =>
            (s.dependsOn.filter (fun d => !(dag.stepIds).contains d)).map (fun d =>
              "Step '" ++ s.id ++ "' depends on '" ++ d ++ "' which does not exist")))
          else if (dag.kahnVisited).length ≠ dag.steps.length then
            ["DAG contains a cycle (visited " ++ toString (dag.kahnVisited).length ++
              "/" ++ toString dag.steps.length ++ " nodes)"]
          else []) = [] := hv
      by_cases h2 : (dag.steps.flatMap (fun s =>
          (s.dependsOn.filter (fun d => !(dag.stepIds).contains d)).map (fun d =>
            "Step '" ++ s.id ++ "' depends on '" ++ d ++ "' which does not exist"))) ≠ []
      · rw [if_pos h2] at hv'
        exact h2 hv'
      · rw [if_neg h2] at hv'
        rw [if_pos hne] at hv'
        simp at hv'
  have inv := kahnVisited_inv dag hnd
  have hVnd : dag.kahnVisited.Nodup := by simpa using inv.nodup
  have hVsub : dag.kahnVisited ⊆ dag.stepIds := fun x hx =>
    inv.subids x (by simpa using hx)
  have hperm : List.Perm dag.kahnVisited dag.stepIds := by
    refine (List.subperm_of_subset hVnd hVsub).perm_of_length_le ?_
    rw [hlen]
    simp [stepIds]
  intro x hx
  have hxV : x ∈ dag.kahnVisited := hperm.mem_iff.2 hx
  exact inv.rem x (by simpa using hxV)

/-- Walking one whole layer preserves the invariant: the layer moves into
the processed prefix, and the collected zeros join the deferred pool. -/
theorem processLayer_inv (dag : WorkflowDAG) (hnd : dag.stepIds.Nodup) :
    ∀ (L P Z : List String), KahnInv dag P (L ++ Z) →
    (processLayer dag.adjacency L (dag.degTable P)).1 = dag.degTable (P ++ L) ∧
    KahnInv dag (P ++ L)
      (Z ++ (processLayer dag.adjacency L (dag.degTable P)).2) := by
  intro L
  induction L with
  | nil =>
    intro P Z inv
    refine ⟨by simp [processLayer], ?_⟩
    simp only [processLayer, List.append_nil]
    simpa using inv
  | cons n ns ih =>
    intro P Z inv
    have hinv' : KahnInv dag P (n :: (ns ++ Z)) := by simpa using inv
    have hq : n ∈ dag.stepIds :=
      hinv'.subids n (List.mem_append_right _ (List.mem_cons_self _ _))
    have hqP : n ∉ P := fun h =>
      (List.nodup_append.1 hinv'.nodup).2.2 h (List.mem_cons_self _ _)
    have hupd := (processChildren_degTable dag hnd hq hqP).1
    have hstep := kahnInv_step dag hnd hinv'
    have hstep' : KahnInv dag (P ++ [n])
        (ns ++ (Z ++ (processChildren (dag.degTable P) (dag.adjacency n)).2)) := by
      have heq : (ns ++ Z) ++ (processChildren (dag.degTable P) (dag.adjacency n)).2 =
          ns ++ (Z ++ (processChildren (dag.degTable P) (dag.adjacency n)).2) := by
        simp
      rw [← heq]
      exact hstep
    have hih := ih (P ++ [n])
      (Z ++ (processChildren (dag.degTable P) (dag.adjacency n)).2) hstep'
    have hunfold : processLayer dag.adjacency (n :: ns) (dag.degTable P) =
        ((processLayer dag.adjacency ns
            (processChildren (dag.degTable P) (dag.adjacency n)).1).1,
          (processChildren (dag.degTable P) (dag.adjacency n)).2 ++
            (processLayer dag.adjacency ns
              (processChildren (dag.degTable P) (dag.adjacency n)).1).2) := rfl
    rw [hunfold, hupd]
    have happ : (P ++ [n]) ++ ns = P ++ n :: ns := by simp
    constructor
    · rw [hih.1, happ]
    · have := hih.2
      rw [happ] at this
      have heq2 : (Z ++ (processChildren (dag.degTable P) (dag.adjacency n)).2) ++
          (processLayer dag.adjacency ns (dag.degTable (P ++ [n]))).2 =
          Z ++ ((processChildren (dag.degTable P) (dag.adjacency n)).2 ++
            (processLayer dag.adjacency ns (dag.degTable (P ++ [n]))).2) := by
        simp
      rw [← heq2]
      exact this

/-- The layered loop run to completion from any invariant state. -/
theorem layersRun_inv (dag : WorkflowDAG) (hnd : dag.stepIds.Nodup) :
    ∀ (fuel : Nat) (P L : List String), KahnInv dag P L →
    dag.steps.length + 1 ≤ fuel + P.length →
    KahnInv dag
      (P ++ (layersRun dag.adjacency fuel L (dag.degTable P)).flatten) [] := by
  intro fuel
  induction fuel with
  | zero =>
    intro P L inv hfuel
    exfalso
    have hlen := kahnInv_length_le inv
    rw [List.length_append] at hlen
    omega
  | succ fuel ih =>
    intro P L inv hfuel
    by_cases hL : L.isEmpty
    · have hLnil : L = [] := List.isEmpty_iff.1 hL
      subst hLnil
      simp only [layersRun, if_pos rfl]
      simpa using inv
    · have hL1 : 1 ≤ L.length := by
        cases L with
        | nil => simp at hL
        | cons a as => simp
      have hpl := processLayer_inv dag hnd L P [] (by simpa using inv)
      have hinv2 : KahnInv dag (P ++ L)
          (processLayer dag.adjacency L (dag.degTable P)).2 := by
        have := hpl.2
        simpa using this
      have hih := ih (P ++ L) (processLayer dag.adjacency L (dag.degTable P)).2
        hinv2 (by rw [List.length_append]; omega)
      have hunfold : layersRun dag.adjacency (fuel + 1) L (dag.degTable P) =
          L :: layersRun dag.adjacency fuel
            (processLayer dag.adjacency L (dag.degTable P)).2
            (processLayer dag.adjacency L (dag.degTable P)).1 := by
        simp only [layersRun, hL]
        rfl
      rw [hunfold, hpl.1]
      rw [List.flatten_cons, ← List.append_assoc]
      exact hih

/-- The flattened execution layers satisfy the final invariant. -/
theorem execution_layers_inv (dag : WorkflowDAG) (hnd : dag.stepIds.Nodup) :
    KahnInv dag dag.get_execution_layers.flatten [] := by
  have hinit := kahnInit_inv dag hnd
  have h := layersRun_inv dag hnd (dag.steps.length + 1) []
    ((dag.inDegreeInit.filter (fun kv => kv.2 == 0)).map Prod.fst)
    hinit (by simp)
  have h' : KahnInv dag
      ((layersRun dag.adjacency (dag.steps.length + 1)
        ((dag.inDegreeInit.filter (fun kv => kv.2 == 0)).map Prod.fst)
        (dag.degTable [])).flatten) [] := by simpa using h
  rw [degTable_nil] at h'
  exact h'

/-- For a validated DAG the flattened layers are a permutation of the
step ids: every step is scheduled exactly once. -/
theorem execution_layers_flatten_perm (dag : WorkflowDAG)
    (hnd : dag.stepIds.Nodup) (hv : dag.validate = []) :
    List.Perm dag.get_execution_layers.flatten dag.stepIds := by
  have inv := execution_layers_inv dag hnd
  have hFnd : dag.get_execution_layers.flatten.Nodup := by simpa using inv.nodup
  have hFsub : dag.get_execution_layers.flatten ⊆ dag.stepIds := fun x hx =>
    inv.subids x (by simpa using hx)
  have hids : dag.stepIds ⊆ dag.get_execution_layers.flatten := fun x hx =>
    removable_mem_of_final inv x (validate_ok_all_removable dag hnd hv x hx)
  exact (List.subperm_of_subset hFnd hFsub).antisymm
    (List.subperm_of_subset hnd hids)

/-!
## From the scheduler to `execute` (claims C10 and C4)
-/

/-- The retry loop's result always carries the step's id and a terminal
COMPLETED/FAILED status. -/
theorem runAttempts_result (step : WorkflowStep) (beh : StepBehavior)
    (timeout : ℚ) :
    ∀ (fuel attempt retries : Nat) (err : Option String),
      (runAttempts step beh timeout fuel attempt retries err).1.stepId = step.id ∧
      ((runAttempts step beh timeout fuel attempt retries err).1.status =
          StepStatus.completed ∨
        (runAttempts step beh timeout fuel attempt retries err).1.status =
          StepStatus.failed) := by
  intro fuel
  induction fuel with
  | zero => intro attempt retries err; simp [runAttempts]
  | succ fuel ih =>
    intro attempt retries err
    cases h : beh.attempts attempt with
    | ok => simp [runAttempts, h]
    | exn msg =>
      simp only [runAttempts, h]
      exact ih (attempt + 1) attempt _
    | timedOut =>
      simp only [runAttempts, h]
      exact ih (attempt + 1) attempt _

/-- `_execute_step` records a terminal status, never PENDING or RUNNING,
and keys it by the step's own id. -/
theorem executeStep_result (step : WorkflowStep) (beh : StepBehavior) (t : ℚ) :
    (executeStep step beh t).1.stepId = step.id ∧
    ((executeStep step beh t).1.status = StepStatus.completed ∨
      (executeStep step beh t).1.status = StepStatus.failed ∨
      (executeStep step beh t).1.status = StepStatus.skipped) := by
  unfold executeStep
  split_ifs with hcond
  · cases hc : beh.cond with
    | condFalse => simp
    | raises msg => simp
    | condTrue =>
      have h := runAttempts_result step beh (effectiveTimeout step t)
        (step.maxRetries + 1) 0 0 none
      exact ⟨h.1, by tauto⟩
  · have h := runAttempts_result step beh (effectiveTimeout step t)
      (step.maxRetries + 1) 0 0 none
    exact ⟨h.1, by tauto⟩

/-- Looking up a known step id in `_steps` succeeds. -/
theorem find?_step_of_mem {dag : WorkflowDAG} {sid : String}
    (h : sid ∈ dag.stepIds) :
    ∃ s, dag.steps.find? (fun t => t.id == sid) = some s ∧ s.id = sid := by
  obtain ⟨s, hs, rfl⟩ := List.mem_map.1 h
  have hsome : (dag.steps.find? (fun t => t.id == s.id)).isSome := by
    rw [List.find?_isSome]
    exact ⟨s, hs, by simp⟩
  obtain ⟨u, hu⟩ := Option.isSome_iff_exists.1 hsome
  exact ⟨u, hu, by simpa using List.find?_some hu⟩

/-- The result `execute` records for a step skipped because a dependency
failed. -/
def depFailedResult (sid : String) : StepResult :=
  { stepId := sid, status := StepStatus.skipped, error := some "Dependency failed" }

/-- One layer of `execute` appends exactly one result per layer node (in
layer order) and every appended result has a terminal status. -/
theorem runLayer_keys_status (dag : WorkflowDAG) (beh : String → StepBehavior)
    (t : ℚ) :
    ∀ (L : List String) (results : List (String × StepResult))
      (traces : List (String × List StepEvent)),
    (∀ sid ∈ L, sid ∈ dag.stepIds) →
    ((runLayer dag beh t L results traces).1.map Prod.fst =
      results.map Prod.fst ++ L) ∧
    (∀ kv ∈ (runLayer dag beh t L results traces).1, kv ∈ results ∨
      (kv.2.status = StepStatus.completed ∨ kv.2.status = StepStatus.failed ∨
        kv.2.status = StepStatus.skipped)) := by
  intro L
  induction L with
  | nil =>
    intro results traces _
    exact ⟨by simp [runLayer], fun kv hkv => Or.inl hkv⟩
  | cons sid rest ih =>
    intro results traces hmem
    obtain ⟨step, hfind, hstepid⟩ :=
      find?_step_of_mem (hmem sid (List.mem_cons_self _ _))
    have hmem' : ∀ x ∈ rest, x ∈ dag.stepIds := fun x hx =>
      hmem x (List.mem_cons_of_mem _ hx)
    by_cases hdep : step.dependsOn.any
        (fun d => lookupStatus results d == StepStatus.failed)
    · have hunfold : runLayer dag beh t (sid :: rest) results traces =
          runLayer dag beh t rest
            (results ++ [(sid, depFailedResult sid)]) traces := by
        simp only [runLayer, hfind, hdep, if_true]
        rfl
      rw [hunfold]
      obtain ⟨hkeys, hstat⟩ := ih
        (results ++ [(sid, depFailedResult sid)]) traces hmem'
      constructor
      · rw [hkeys]
        simp
      · intro kv hkv
        rcases hstat kv hkv with hin | hterm
        · rcases List.mem_append.1 hin with hin' | hnew
          · exact Or.inl hin'
          · have hkveq : kv = (sid, depFailedResult sid) := List.mem_singleton.1 hnew
            right
            rw [hkveq]
            simp [depFailedResult]
        · exact Or.inr hterm
    · have hunfold : runLayer dag beh t (sid :: rest) results traces =
          runLayer dag beh t rest
            (results ++ [(sid, (executeStep step (beh sid) t).1)])
            (traces ++ [(sid, (executeStep step (beh sid) t).2)]) := by
        simp only [runLayer, hfind]
        rw [if_neg hdep]
      rw [hunfold]
      obtain ⟨hkeys, hstat⟩ := ih
        (results ++ [(sid, (executeStep step (beh sid) t).1)])
        (traces ++ [(sid, (executeStep step (beh sid) t).2)]) hmem'
      constructor
      · rw [hkeys]
        simp
      · intro kv hkv
        rcases hstat kv hkv with hin | hterm
        · rcases List.mem_append.1 hin with hin' | hnew
          · exact Or.inl hin'
          · have hkveq : kv = (sid, (executeStep step (beh sid) t).1) :=
              List.mem_singleton.1 hnew
            right
            rw [hkveq]
            exact (executeStep_result step (beh sid) t).2
        · exact Or.inr hterm

/-- Folding `execute`'s layer loop appends one result per scheduled node,
all terminal. -/
theorem runLayers_keys_status (dag : WorkflowDAG) (beh : String → StepBehavior)
    (t : ℚ) :
    ∀ (Ls : List (List String))
      (acc : List (String × StepResult) × List (String × List StepEvent)),
    (∀ L ∈ Ls, ∀ sid ∈ L, sid ∈ dag.stepIds) →
    ((runLayers dag beh t Ls acc).1.map Prod.fst =
      acc.1.map Prod.fst ++ Ls.flatten) ∧
    (∀ kv ∈ (runLayers dag beh t Ls acc).1, kv ∈ acc.1 ∨
      (kv.2.status = StepStatus.completed ∨ kv.2.status = StepStatus.failed ∨
        kv.2.status = StepStatus.skipped)) := by
  intro Ls
  induction Ls with
  | nil =>
    intro acc _
    exact ⟨by simp [runLayers], fun kv hkv => Or.inl hkv⟩
  | cons L rest ih =>
    intro acc hmem
    have hL := runLayer_keys_status dag beh t L acc.1 acc.2
      (hmem L (List.mem_cons_self _ _))
    have hunfold : runLayers dag beh t (L :: rest) acc =
        runLayers dag beh t rest (runLayer dag beh t L acc.1 acc.2) := rfl
    rw [hunfold]
    obtain ⟨hkeys, hstat⟩ := ih (runLayer dag beh t L acc.1 acc.2)
      (fun M hM => hmem M (List.mem_cons_of_mem _ hM))
    constructor
    · rw [hkeys, hL.1]
      simp
    · intro kv hkv
      rcases hstat kv hkv with hin | hterm
      · rcases hL.2 kv hin with hin' | hterm'
        · exact Or.inl hin'
        · exact Or.inr hterm'
      · exact Or.inr hterm

/-- A results table with only terminal statuses is partitioned by the
three terminal statuses. -/
theorem status_counts_partition :
    ∀ (l : List (String × StepResult)),
    (∀ kv ∈ l, kv.2.status = StepStatus.completed ∨
      kv.2.status = StepStatus.failed ∨ kv.2.status = StepStatus.skipped) →
    (l.filter (fun kv => kv.2.status == StepStatus.completed)).length +
      (l.filter (fun kv => kv.2.status == StepStatus.failed)).length +
      (l.filter (fun kv => kv.2.status == StepStatus.skipped)).length =
      l.length := by
  intro l
  induction l with
  | nil => intro _; simp
  | cons kv l ih =>
    intro h
    have hkv := h kv (List.mem_cons_self _ _)
    have hrest := ih (fun e he => h e (List.mem_cons_of_mem _ he))
    rcases hkv with hst | hst | hst <;>
      simp [List.filter_cons, hst] <;> omega

/-- C10: for every DAG passing validation (with distinct step ids, as
`add_step` enforces), `execute` returns a result whose `steps` table has
exactly one entry per DAG step — its key list is a permutation of the
step ids, with no duplicates — every recorded status is terminal
(COMPLETED, FAILED or SKIPPED, never PENDING or RUNNING), and
`completed_count + failed_count + skipped_count` equals the number of
steps. -/
theorem execute_total_terminal (dag : WorkflowDAG)
    (beh : String → StepBehavior) (t : ℚ)
    (hnd : dag.stepIds.Nodup) (hv : dag.validate = []) :
    ∃ res tr, execute dag beh t = some (res, tr) ∧
      List.Perm (res.steps.map Prod.fst) dag.stepIds ∧
      (res.steps.map Prod.fst).Nodup ∧
      (∀ kv ∈ res.steps, kv.2.status = StepStatus.completed ∨
        kv.2.status = StepStatus.failed ∨ kv.2.status = StepStatus.skipped) ∧
      res.completedCount + res.failedCount + res.skippedCount =
        dag.steps.length := by
  have hperm := WorkflowDAG.execution_layers_flatten_perm dag hnd hv
  have hinv := WorkflowDAG.execution_layers_inv dag hnd
  have hFnd : dag.get_execution_layers.flatten.Nodup := by
    simpa using hinv.nodup
  have hmemids : ∀ L ∈ dag.get_execution_layers, ∀ sid ∈ L, sid ∈ dag.stepIds := by
    intro L hL sid hsid
    exact hperm.mem_iff.1 (List.mem_flatten.2 ⟨L, hL, hsid⟩)
  obtain ⟨hkeys0, hstat0⟩ :=
    runLayers_keys_status dag beh t dag.get_execution_layers ([], []) hmemids
  have hkeys : (runLayers dag beh t dag.get_execution_layers ([], [])).1.map
      Prod.fst = dag.get_execution_layers.flatten := by simpa using hkeys0
  have hterm : ∀ kv ∈ (runLayers dag beh t dag.get_execution_layers ([], [])).1,
      kv.2.status = StepStatus.completed ∨ kv.2.status = StepStatus.failed ∨
        kv.2.status = StepStatus.skipped := by
    intro kv hkv
    rcases hstat0 kv hkv with hmem | hterm
    · exact absurd hmem (List.not_mem_nil kv)
    · exact hterm
  have hcnt := status_counts_partition _ hterm
  have hlen : (runLayers dag beh t dag.get_execution_layers ([], [])).1.length =
      dag.steps.length := by
    have h1 := congrArg List.length hkeys
    rw [List.length_map] at h1
    rw [h1, hperm.length_eq]
    simp [WorkflowDAG.stepIds]
  have hvfalse : ¬ dag.validate ≠ [] := by simp [hv]
  have hexec : execute dag beh t = some
      ({ success := (((runLayers dag beh t dag.get_execution_layers ([], [])).1.filter
           (fun kv => kv.2.status == StepStatus.failed)).length == 0),
         steps := (runLayers dag beh t dag.get_execution_layers ([], [])).1,
         completedCount := ((runLayers dag beh t dag.get_execution_layers
           ([], [])).1.filter
           (fun kv => kv.2.status == StepStatus.completed)).length,
         failedCount := ((runLayers dag beh t dag.get_execution_layers
           ([], [])).1.filter
           (fun kv => kv.2.status == StepStatus.failed)).length,
         skippedCount := ((runLayers dag beh t dag.get_execution_layers
           ([], [])).1.filter
           (fun kv => kv.2.status == StepStatus.skipped)).length },
       (runLayers dag beh t dag.get_execution_layers ([], [])).2) := by
    unfold execute
    rw [if_neg hvfalse]
  refine ⟨_, _, hexec, ?_, ?_, ?_, ?_⟩
  · show List.Perm
      ((runLayers dag beh t dag.get_execution_layers ([], [])).1.map Prod.fst)
      dag.stepIds
    rw [hkeys]
    exact hperm
  · show ((runLayers dag beh t dag.get_execution_layers ([], [])).1.map
      Prod.fst).Nodup
    rw [hkeys]
    exact hFnd
  · show ∀ kv ∈ (runLayers dag beh t dag.get_execution_layers ([], [])).1, _
    exact hterm
  · show ((runLayers dag beh t dag.get_execution_layers ([], [])).1.filter
        (fun kv => kv.2.status == StepStatus.completed)).length +
      ((runLayers dag beh t dag.get_execution_layers ([], [])).1.filter
        (fun kv => kv.2.status == StepStatus.failed)).length +
      ((runLayers dag beh t dag.get_execution_layers ([], [])).1.filter
        (fun kv => kv.2.status == StepStatus.skipped)).length =
      dag.steps.length
    exact hcnt.trans hlen

/-- A two-step chain used to instantiate `execute_total_terminal`. -/
def c10stepA : WorkflowStep := { id := "a" }

/-- Second step of the chain, depending on the first. -/
def c10stepB : WorkflowStep := { id := "b", dependsOn := ["a"] }

/-- The witness DAG for claim C10. -/
def c10dag : WorkflowDAG := { steps := [c10stepA, c10stepB] }

/-- Behaviour oracle for the C10 witness: every attempt succeeds. -/
def c10beh : String → StepBehavior :=
  fun _ => { attempts := fun _ => AttemptOutcome.ok }

/-- Witness for `execute_total_terminal` on a concrete two-step DAG. -/
theorem execute_total_terminal_witness :
    c10dag.stepIds.Nodup ∧ c10dag.validate = [] ∧
    (∃ res tr, execute c10dag c10beh 30 = some (res, tr) ∧
      List.Perm (res.steps.map Prod.fst) c10dag.stepIds ∧
      (res.steps.map Prod.fst).Nodup ∧
      (∀ kv ∈ res.steps, kv.2.status = StepStatus.completed ∨
        kv.2.status = StepStatus.failed ∨ kv.2.status = StepStatus.skipped) ∧
      res.completedCount + res.failedCount + res.skippedCount =
        c10dag.steps.length) :=
  ⟨by decide, by decide,
    execute_total_terminal c10dag c10beh 30 (by decide) (by decide)⟩

/-- The `WorkflowResult` assembled by a successful `execute` call. -/
def executeResult (dag : WorkflowDAG) (beh : String → StepBehavior) (t : ℚ) :
    WorkflowResult :=
  { success := (((runLayers dag beh t dag.get_execution_layers ([], [])).1.filter
      (fun kv => kv.2.status == StepStatus.failed)).length == 0),
    steps := (runLayers dag beh t dag.get_execution_layers ([], [])).1,
    completedCount := ((runLayers dag beh t dag.get_execution_layers
      ([], [])).1.filter
      (fun kv => kv.2.status == StepStatus.completed)).length,
    failedCount := ((runLayers dag beh t dag.get_execution_layers
      ([], [])).1.filter
      (fun kv => kv.2.status == StepStatus.failed)).length,
    skippedCount := ((runLayers dag beh t dag.get_execution_layers
      ([], [])).1.filter
      (fun kv => kv.2.status == StepStatus.skipped)).length }

/-- C4: failure propagation in `execute`. (1) A step one of whose
dependencies is recorded FAILED is recorded SKIPPED with error
"Dependency failed" and its `fn` is never invoked: the results table
gains exactly that entry and the event traces gain nothing. (2) A step
none of whose dependencies is recorded FAILED is launched via
`_execute_step` — a SKIPPED dependency does not propagate (the source's
`dep_skipped` flag is computed but never read). (3) A returned workflow
has `success = false` exactly when some step's recorded status is
FAILED. -/
theorem failure_propagation_contract :
    (∀ (dag : WorkflowDAG) (beh : String → StepBehavior) (t : ℚ)
       (sid : String) (rest : List String)
       (results : List (String × StepResult))
       (traces : List (String × List StepEvent)) (step : WorkflowStep),
      dag.steps.find? (fun s => s.id == sid) = some step →
      step.dependsOn.any
        (fun d => lookupStatus results d == StepStatus.failed) = true →
      runLayer dag beh t (sid :: rest) results traces =
        runLayer dag beh t rest
          (results ++ [(sid, depFailedResult sid)]) traces) ∧
    (∀ (dag : WorkflowDAG) (beh : String → StepBehavior) (t : ℚ)
       (sid : String) (rest : List String)
       (results : List (String × StepResult))
       (traces : List (String × List StepEvent)) (step : WorkflowStep),
      dag.steps.find? (fun s => s.id == sid) = some step →
      step.dependsOn.any
        (fun d => lookupStatus results d == StepStatus.failed) = false →
      runLayer dag beh t (sid :: rest) results traces =
        runLayer dag beh t rest
          (results ++ [(sid, (executeStep step (beh sid) t).1)])
          (traces ++ [(sid, (executeStep step (beh sid) t).2)])) ∧
    (∀ (dag : WorkflowDAG) (beh : String → StepBehavior) (t : ℚ)
       (res : WorkflowResult) (tr : List (String × List StepEvent)),
      execute dag beh t = some (res, tr) →
      (res.success = false ↔
        ∃ kv ∈ res.steps, kv.2.status = StepStatus.failed)) := by
  refine ⟨?_, ?_, ?_⟩
  · intro dag beh t sid rest results traces step hfind hdep
    simp only [runLayer, hfind, hdep, if_true]
    rfl
  · intro dag beh t sid rest results traces step hfind hdep
    simp only [runLayer, hfind]
    rw [hdep, if_neg Bool.false_ne_true]
  · intro dag beh t res tr h
    have hvfalse : ¬ dag.validate ≠ [] := by
      intro hne
      unfold execute at h
      rw [if_pos hne] at h
      exact Option.noConfusion h
    unfold execute at h
    rw [if_neg hvfalse] at h
    have hpair := Option.some.inj h
    have hres : executeResult dag beh t = res := congrArg Prod.fst hpair
    rw [← hres]
    show (((runLayers dag beh t dag.get_execution_layers ([], [])).1.filter
        (fun kv => kv.2.status == StepStatus.failed)).length == 0) = false ↔
      ∃ kv ∈ (runLayers dag beh t dag.get_execution_layers ([], [])).1,
        kv.2.status = StepStatus.failed
    constructor
    · intro hs
      have hne : ((runLayers dag beh t dag.get_execution_layers
          ([], [])).1.filter
          (fun kv => kv.2.status == StepStatus.failed)).length ≠ 0 := by
        intro h0
        rw [h0] at hs
        simp at hs
      obtain ⟨kv, hkv⟩ := List.exists_mem_of_length_pos (Nat.pos_of_ne_zero hne)
      obtain ⟨hkv1, hkv2⟩ := List.mem_filter.1 hkv
      exact ⟨kv, hkv1, by simpa using hkv2⟩
    · rintro ⟨kv, hkv, hst⟩
      have hkvf : kv ∈ (runLayers dag beh t dag.get_execution_layers
          ([], [])).1.filter
          (fun kv => kv.2.status == StepStatus.failed) :=
        List.mem_filter.2 ⟨hkv, by simp [hst]⟩
      have hpos := List.length_pos_of_mem hkvf
      rw [beq_eq_false_iff_ne]
      omega

/-- The C4 witness step that always fails (one attempt, no retries). -/
def c4fail : WorkflowStep := { id := "fail", maxRetries := 0 }

/-- The C4 witness step depending on the failing step. -/
def c4child : WorkflowStep := { id := "child", dependsOn := ["fail"] }

/-- The C4 witness step with no dependencies. -/
def c4indep : WorkflowStep := { id := "independent" }

/-- The C4 witness DAG: `fail`, `child` (depends on `fail`), and an
independent branch. -/
def c4dag : WorkflowDAG := { steps := [c4fail, c4child, c4indep] }

/-- Behaviour oracle for the C4 witness: `fail`'s fn always raises,
everything else succeeds. -/
def c4beh : String → StepBehavior := fun sid =>
  if sid = "fail" then { attempts := fun _ => AttemptOutcome.exn "boom" }
  else { attempts := fun _ => AttemptOutcome.ok }

/-- The recorded result of the `fail` step in the C4 witness run. -/
def c4failResult : StepResult :=
  { stepId := "fail", status := StepStatus.failed, error := some "boom" }

/-- The recorded result of the `independent` step in the C4 witness run. -/
def c4okResult : StepResult :=
  { stepId := "independent", status := StepStatus.completed }

/-- The workflow result of the C4 witness run. -/
def c4res : WorkflowResult :=
  { success := false,
    steps := [("fail", c4failResult), ("independent", c4okResult),
              ("child", depFailedResult "child")],
    completedCount := 1, failedCount := 1, skippedCount := 1 }

/-- The event traces of the C4 witness run: one attempt each for `fail`
and `independent`, nothing for the skipped `child`. -/
def c4tr : List (String × List StepEvent) :=
  [("fail", [StepEvent.attemptEv 0]), ("independent", [StepEvent.attemptEv 0])]

/-- A results table recording `fail` as SKIPPED, to exhibit that a
SKIPPED dependency does not propagate. -/
def c4skipResults : List (String × StepResult) :=
  [("fail", { stepId := "fail", status := StepStatus.skipped })]

/-- A results table after the first layer of the C4 witness run. -/
def c4prevResults : List (String × StepResult) :=
  [("fail", c4failResult), ("independent", c4okResult)]

/-- Witness for `failure_propagation_contract`: in the concrete
fail/child/independent run, `child` is skipped with "Dependency failed"
and no trace, a SKIPPED dependency alone still lets the dependent run,
and the workflow of that run has `success = false` because `fail`'s
status is FAILED. -/
theorem failure_propagation_contract_witness :
    (runLayer c4dag c4beh 30 ["child"] c4prevResults [] =
      runLayer c4dag c4beh 30 []
        (c4prevResults ++ [("child", depFailedResult "child")]) []) ∧
    (runLayer c4dag c4beh 30 ["child"] c4skipResults [] =
      runLayer c4dag c4beh 30 []
        (c4skipResults ++ [("child", (executeStep c4child (c4beh "child") 30).1)])
        ([] ++ [("child", (executeStep c4child (c4beh "child") 30).2)])) ∧
    (c4res.success = false ↔
      ∃ kv ∈ c4res.steps, kv.2.status = StepStatus.failed) :=
  ⟨failure_propagation_contract.1 c4dag c4beh 30 "child" [] c4prevResults []
      c4child (by decide) (by decide),
    failure_propagation_contract.2.1 c4dag c4beh 30 "child" [] c4skipResults []
      c4child (by decide) (by decide),
    failure_propagation_contract.2.2 c4dag c4beh 30 c4res c4tr (by decide)⟩

/-!
## Concurrency skeleton of `_execute_step` (claim C8)

`_execute_step`'s synchronisation structure is
`async with self._semaphore:` (a counted semaphore of `max_concurrency`
permits), then — for a step whose `resource_tag` has a registered
limiter — `await limiter.acquire()`, then the `fn` invocation.  The
small-step model below tracks each scheduled step through these phases;
the oracle `lim sid` says whether a rate limiter is registered for the
step's tag.
-/

/-- Where one `_execute_step` call stands in its synchronisation
skeleton. -/
inductive ExecutorPhase
  | beforeSem
  | waitingToken
  | invokingFn
  | donePh
deriving DecidableEq, Repr

/-- Whether a phase holds one of the semaphore's permits (`async with
self._semaphore` spans both the limiter wait and the fn invocation). -/
def holdsPermit : ExecutorPhase → Bool
  | .waitingToken => true
  | .invokingFn => true
  | _ => false

/-- One scheduler step of the concurrency skeleton: acquire the
semaphore when a permit is free (landing in the token wait if a limiter
is registered, directly at the fn invocation otherwise), receive a
rate-limiter token, or finish and release the permit. -/
inductive PhaseStep (maxC : Nat) (lim : String → Bool) :
    List (String × ExecutorPhase) → List (String × ExecutorPhase) → Prop
  | acquireSem (pre post : List (String × ExecutorPhase)) (sid : String) :
      (pre ++ post).countP (fun e => holdsPermit e.2) < maxC →
      PhaseStep maxC lim (pre ++ (sid, ExecutorPhase.beforeSem) :: post)
        (pre ++ (sid, if lim sid then ExecutorPhase.waitingToken
                      else ExecutorPhase.invokingFn) :: post)
  | acquireToken (pre post : List (String × ExecutorPhase)) (sid : String) :
      PhaseStep maxC lim (pre ++ (sid, ExecutorPhase.waitingToken) :: post)
        (pre ++ (sid, ExecutorPhase.invokingFn) :: post)
  | finishStep (pre post : List (String × ExecutorPhase)) (sid : String) :
      PhaseStep maxC lim (pre ++ (sid, ExecutorPhase.invokingFn) :: post)
        (pre ++ (sid, ExecutorPhase.donePh) :: post)

/-- Reachability under the concurrency skeleton's steps. -/
inductive ReachPhases (maxC : Nat) (lim : String → Bool) :
    List (String × ExecutorPhase) → List (String × ExecutorPhase) → Prop
  | refl (σ : List (String × ExecutorPhase)) : ReachPhases maxC lim σ σ
  | tail (σ τ ρ : List (String × ExecutorPhase)) :
      ReachPhases maxC lim σ τ → PhaseStep maxC lim τ ρ →
      ReachPhases maxC lim σ ρ

/-- A single scheduler step never pushes the number of held permits
above the cap, and never grows it except through the guarded semaphore
acquisition. -/
theorem phaseStep_permits {maxC : Nat} {lim : String → Bool}
    {σ τ : List (String × ExecutorPhase)} (h : PhaseStep maxC lim σ τ)
    (hσ : σ.countP (fun e => holdsPermit e.2) ≤ maxC) :
    τ.countP (fun e => holdsPermit e.2) ≤ maxC := by
  cases h with
  | acquireSem pre post sid hguard =>
    rw [List.countP_append, List.countP_cons]
    rw [List.countP_append] at hguard
    have hnew : holdsPermit (if lim sid then ExecutorPhase.waitingToken
        else ExecutorPhase.invokingFn) = true := by
      by_cases hl : lim sid
      · rw [if_pos hl]; rfl
      · rw [if_neg hl]; rfl
    simp only [hnew, if_true]
    omega
  | acquireToken pre post sid =>
    rw [List.countP_append, List.countP_cons] at hσ ⊢
    simp only [holdsPermit] at hσ ⊢
    simp at hσ ⊢
    omega
  | finishStep pre post sid =>
    rw [List.countP_append, List.countP_cons] at hσ ⊢
    simp only [holdsPermit] at hσ ⊢
    simp at hσ ⊢
    omega

/-- C8: (1) in every state reachable from the initial one (all scheduled
steps before the semaphore), at most `max_concurrency` steps are
invoking their `fn` simultaneously — the permits held (which also span
the limiter wait) never exceed the cap, and fn invocation implies
holding a permit; (2) a step with a registered limiter enters the fn
invocation only out of the token wait (token before fn); (3) a step
leaves the pre-semaphore phase only through the guarded semaphore
acquisition — into the token wait when a limiter is registered for its
tag, directly into the fn invocation otherwise — so the token is
acquired after the concurrency permit. -/
theorem executor_concurrency_contract (maxC : Nat) (lim : String → Bool)
    (sids : List String) :
    (∀ σ, ReachPhases maxC lim
        (sids.map (fun s => (s, ExecutorPhase.beforeSem))) σ →
      σ.countP (fun e => e.2 == ExecutorPhase.invokingFn) ≤ maxC) ∧
    (∀ σ τ, PhaseStep maxC lim σ τ → ∀ sid, lim sid = true →
      (sid, ExecutorPhase.invokingFn) ∈ τ →
      (sid, ExecutorPhase.invokingFn) ∈ σ ∨
        (sid, ExecutorPhase.waitingToken) ∈ σ) ∧
    (∀ σ τ, PhaseStep maxC lim σ τ → ∀ sid,
      (sid, ExecutorPhase.beforeSem) ∈ σ →
      (sid, ExecutorPhase.beforeSem) ∉ τ →
      ((sid, if lim sid then ExecutorPhase.waitingToken
             else ExecutorPhase.invokingFn) ∈ τ ∧
        σ.countP (fun e => holdsPermit e.2) < maxC)) := by
  refine ⟨?_, ?_, ?_⟩
  · intro σ hreach
    have hzero : (sids.map (fun s => (s, ExecutorPhase.beforeSem))).countP
        (fun e => holdsPermit e.2) = 0 := by
      rw [List.countP_eq_zero]
      intro a ha
      obtain ⟨s, _, rfl⟩ := List.mem_map.1 ha
      simp [holdsPermit]
    have hgen : ∀ (σ0 σ1 : List (String × ExecutorPhase)),
        ReachPhases maxC lim σ0 σ1 →
        σ0.countP (fun e => holdsPermit e.2) ≤ maxC →
        σ1.countP (fun e => holdsPermit e.2) ≤ maxC := by
      intro σ0 σ1 hr
      induction hr with
      | refl => exact fun h => h
      | tail _ _ _ hstep ih => exact fun h0 => phaseStep_permits hstep (ih h0)
    have hperm := hgen _ σ hreach (by rw [hzero]; exact Nat.zero_le maxC)
    refine le_trans ?_ hperm
    apply List.countP_mono_left
    intro e _ he
    rw [beq_iff_eq] at he
    rw [he]
    rfl
  · intro σ τ h sid hlim hmem
    cases h with
    | acquireSem pre post sid2 hguard =>
      rcases List.mem_append.1 hmem with hpre | hrest
      · exact Or.inl (List.mem_append_left _ hpre)
      · rcases List.mem_cons.1 hrest with heq | hpost
        · rw [Prod.mk.injEq] at heq
          obtain ⟨rfl, hph⟩ := heq
          rw [if_pos hlim] at hph
          exact absurd hph (by decide)
        · exact Or.inl (List.mem_append_right _ (List.mem_cons_of_mem _ hpost))
    | acquireToken pre post sid2 =>
      rcases List.mem_append.1 hmem with hpre | hrest
      · exact Or.inl (List.mem_append_left _ hpre)
      · rcases List.mem_cons.1 hrest with heq | hpost
        · rw [Prod.mk.injEq] at heq
          obtain ⟨rfl, _⟩ := heq
          exact Or.inr (List.mem_append_right _ (List.mem_cons_self _ _))
        · exact Or.inl (List.mem_append_right _ (List.mem_cons_of_mem _ hpost))
    | finishStep pre post sid2 =>
      rcases List.mem_append.1 hmem with hpre | hrest
      · exact Or.inl (List.mem_append_left _ hpre)
      · rcases List.mem_cons.1 hrest with heq | hpost
        · rw [Prod.mk.injEq] at heq
          exact absurd heq.2 (by decide)
        · exact Or.inl (List.mem_append_right _ (List.mem_cons_of_mem _ hpost))
  · intro σ τ h sid hmem hnot
    cases h with
    | acquireSem pre post sid2 hguard =>
      rcases List.mem_append.1 hmem with hpre | hrest
      · exact absurd (List.mem_append_left _ hpre) hnot
      · rcases List.mem_cons.1 hrest with heq | hpost
        · rw [Prod.mk.injEq] at heq
          obtain ⟨rfl, -⟩ := heq
          constructor
          · exact List.mem_append_right _ (List.mem_cons_self _ _)
          · rw [List.countP_append, List.countP_cons]
            rw [List.countP_append] at hguard
            have hfalse : holdsPermit (sid, ExecutorPhase.beforeSem).2 = false :=
              rfl
            rw [hfalse, if_neg Bool.false_ne_true]
            omega
        · exact absurd
            (List.mem_append_right _ (List.mem_cons_of_mem _ hpost)) hnot
    | acquireToken pre post sid2 =>
      rcases List.mem_append.1 hmem with hpre | hrest
      · exact absurd (List.mem_append_left _ hpre) hnot
      · rcases List.mem_cons.1 hrest with heq | hpost
        · rw [Prod.mk.injEq] at heq
          exact absurd heq.2 (by decide)
        · exact absurd
            (List.mem_append_right _ (List.mem_cons_of_mem _ hpost)) hnot
    | finishStep pre post sid2 =>
      rcases List.mem_append.1 hmem with hpre | hrest
      · exact absurd (List.mem_append_left _ hpre) hnot
      · rcases List.mem_cons.1 hrest with heq | hpost
        · rw [Prod.mk.injEq] at heq
          exact absurd heq.2 (by decide)
        · exact absurd
            (List.mem_append_right _ (List.mem_cons_of_mem _ hpost)) hnot

/-- Limiter registry for the C8 witness: only step "a"'s tag has a rate
limiter. -/
def c8lim : String → Bool := fun sid => sid == "a"

/-- C8 witness initial state: both steps before the semaphore. -/
def c8init : List (String × ExecutorPhase) :=
  [("a", ExecutorPhase.beforeSem), ("b", ExecutorPhase.beforeSem)]

/-- C8 witness state after "a" acquires the (single) permit: it waits
for its rate-limiter token. -/
def c8afterSem : List (String × ExecutorPhase) :=
  [("a", ExecutorPhase.waitingToken), ("b", ExecutorPhase.beforeSem)]

/-- C8 witness state after "a" receives its token and invokes `fn`. -/
def c8afterTok : List (String × ExecutorPhase) :=
  [("a", ExecutorPhase.invokingFn), ("b", ExecutorPhase.beforeSem)]

/-- Witness for `executor_concurrency_contract` with `max_concurrency
= 1` and two steps, of which "a" has a registered limiter: along the run
acquire-permit / acquire-token / invoke, at most one step invokes `fn`,
"a" enters the invocation out of the token wait, and it left the
pre-semaphore phase through the guarded acquisition into the token
wait. -/
theorem executor_concurrency_contract_witness :
    (c8afterTok.countP (fun e => e.2 == ExecutorPhase.invokingFn) ≤ 1) ∧
    (("a", ExecutorPhase.invokingFn) ∈ c8afterSem ∨
      ("a", ExecutorPhase.waitingToken) ∈ c8afterSem) ∧
    ((("a", if c8lim "a" then ExecutorPhase.waitingToken
            else ExecutorPhase.invokingFn) ∈ c8afterSem) ∧
      c8init.countP (fun e => holdsPermit e.2) < 1) := by
  have hstep1 : PhaseStep 1 c8lim c8init c8afterSem :=
    @PhaseStep.acquireSem 1 c8lim [] [("b", ExecutorPhase.beforeSem)] "a"
      (by decide)
  have hstep2 : PhaseStep 1 c8lim c8afterSem c8afterTok :=
    @PhaseStep.acquireToken 1 c8lim [] [("b", ExecutorPhase.beforeSem)] "a"
  have hreach : ReachPhases 1 c8lim
      (["a", "b"].map (fun s => (s, ExecutorPhase.beforeSem))) c8afterTok :=
    ReachPhases.tail _ _ _
      (ReachPhases.tail _ _ _ (ReachPhases.refl _) hstep1) hstep2
  refine ⟨?_, ?_, ?_⟩
  · exact (executor_concurrency_contract 1 c8lim ["a", "b"]).1 c8afterTok hreach
  · exact (executor_concurrency_contract 1 c8lim ["a", "b"]).2.1 c8afterSem
      c8afterTok hstep2 "a" (by decide) (by decide)
  · exact (executor_concurrency_contract 1 c8lim ["a", "b"]).2.2 c8init
      c8afterSem hstep1 "a" (by decide) (by decide)
